import Mathlib

/-!
A verification model of the bowtie aligner core: the quality-aware
backtracker of src/ebwt_search_backtrack.h and the bit-pair reference
store of src/reference.h, embedded shallowly in Lean.

Conventions.  All C quantities are uint32_t or uint8_t; they are
modelled as Nat.  A (uint8_t) cast in the source is modelled as an
explicit mod 256.  In every run considered by the theorems below all
uint32 quantities stay far below 2^32 (qualities clamp to at most 222,
at most qlen <= 64 mismatches accumulate, indices are bounded by the
arena sizes), so Nat arithmetic agrees with the machine arithmetic;
the two places where uint32 wraparound is semantically relevant in the
source - the walk guard (cur underflowing past 0) and the comparison
d == _5depth - 1 - are modelled by the equivalent non-wrapping
conditions d < qlen and d + 1 = _5depth.  Debug-only code (assert_*,
the naive-oracle cross checks, verbose printing) has no effect on the
release semantics and is omitted.  Fallible or undefined behaviour
(a modulo by zero, a failed target scan) is modelled as Option.none.
-/

namespace Bowtie

/-! ### Definitions: the shallow embedding of the program -/

/-- QueryMutation from ebwt_search_backtrack.h: position, old base and
new base, all base codes in 0..3. -/
structure QueryMutation where
  pos : Nat
  oldBase : Nat
  newBase : Nat
deriving DecidableEq

/-- The QUAL macro (line 138):
((uint8_t)(*_qual)[k] >= 33 ? ((uint8_t)(*_qual)[k] - 33) : 0).
The uint8_t cast is the mod 256. -/
def QUAL (q : Nat) : Nat :=
  if 33 ≤ q % 256 then q % 256 - 33 else 0

/-- curIsAlternative (line 532): (d >= unrevOff) && (ham + q <= _qualThresh)
where q = QUAL of the raw quality byte.  The same test appears in the
eligibility rescan (line 849). -/
def isAlternative (unrev d ham thresh rawq : Nat) : Bool :=
  decide (unrev ≤ d) && decide (ham + QUAL rawq ≤ thresh)

/-- Region tightening in the recursive backtrack (lines 759-788).
Arguments: the half-and-half flag, the member _2revOff captured at
construction, the current frame boundaries unrev/oneRev/twoRev, and the
chosen backtrack position i.  Returns (btUnrevOff, btOneRevOff,
btTwoRevOff).  Note the source assigns btOneRevOff = _2revOff (the
member) in the first branch, not the frame parameter twoRevOff. -/
def tighten (halfAndHalf : Bool) (twoRevOrig unrev oneRev twoRev i : Nat) :
    Nat × Nat × Nat :=
  if i < oneRev then (oneRev, twoRevOrig, twoRev)
  else if i < twoRev then
    if halfAndHalf then (unrev, oneRev, oneRev) else (unrev, twoRev, twoRev)
  else (unrev, oneRev, twoRev)

/-- The tightening rule as the specification words it: if i < oneRev,
push btUnrev = oneRev and btOneRev = twoRev (the frame boundary); else
if i < twoRev and not half-and-half, push btOneRev = twoRev; and if
half-and-half and i < twoRev, push btTwoRev = oneRev. -/
def tightenClaim (halfAndHalf : Bool) (unrev oneRev twoRev i : Nat) :
    Nat × Nat × Nat :=
  (if i < oneRev then oneRev else unrev,
   if i < oneRev then twoRev
     else if i < twoRev ∧ halfAndHalf = false then twoRev else oneRev,
   if halfAndHalf = true ∧ i < twoRev then oneRev else twoRev)

/-- The character written into _chars on a backtrack (line 735):
btchar = "acgt"[j], an ASCII byte. -/
def acgtChar (j : Nat) : Nat :=
  if j = 0 then 97 else if j = 1 then 99 else if j = 2 then 103 else 116

/-- The (Dna) conversion applied to a _chars entry in reportSeedling
(line 1203): seqan maps the lowercase base letters to their codes and
any other byte to 0. -/
def dnaOfChar (c : Nat) : Nat :=
  if c = 97 then 0 else if c = 99 then 1
  else if c = 103 then 2 else if c = 116 then 3 else 0

/-- Byte stream appended by reportSeedling for one seedling, written as
a countdown: the call for stackDepth sd produces, for i from 0 to sd-1,
the byte (uint8_t)_mms[i], then the base code of _chars[qlen-_mms[i]-1],
then a 0xfe separator unless i = sd-1.  The countdown argument n stands
for sd - i remaining entries. -/
def seedlingBytesGo (qlen : Nat) (mms chars : Nat → Nat) (sd : Nat) :
    Nat → List Nat
  | 0 => []
  | Nat.succ n =>
    mms (sd - Nat.succ n) % 256 ::
      dnaOfChar (chars (qlen - mms (sd - Nat.succ n) - 1)) ::
        (if n = 0 then [] else 254 :: seedlingBytesGo qlen mms chars sd n)

/-- All bytes appended by reportSeedling(sd). -/
def seedlingBytes (qlen : Nat) (mms chars : Nat → Nat) (sd : Nat) : List Nat :=
  seedlingBytesGo qlen mms chars sd sd

/-- The (pos, chr) pairs of a seedling of sd mismatches: pos is the
(uint8_t) read offset _mms[i], chr the substituted base code taken from
_chars. -/
def seedPairs (qlen : Nat) (mms chars : Nat → Nat) (sd : Nat) :
    List (Nat × Nat) :=
  (List.range sd).map
    (fun i => (mms i % 256, dnaOfChar (chars (qlen - mms i - 1))))

/-- Reference encoder for a list of (pos, chr) pairs: the pair bytes
with a 0xfe separator between consecutive pairs and none after the
last. -/
def encodeSeedlings : List (Nat × Nat) → List Nat
  | [] => []
  | [(p, c)] => [p, c]
  | (p, c) :: rest => p :: c :: 254 :: encodeSeedlings rest

/-- Parser for the seedling stream: reads two bytes, then either the
stream ends or a 0xfe separator precedes the next pair. -/
def decodeSeedlings : List Nat → List (Nat × Nat)
  | p :: c :: 254 :: rest => (p, c) :: decodeSeedlings rest
  | [p, c] => [(p, c)]
  | _ => []

/-- A RefRecord: off ambiguous bases precede len unambiguous bases;
fb marks the first record of a reference sequence. -/
structure RefRecord where
  off : Nat
  len : Nat
  fb : Bool
deriving DecidableEq

/-- A loaded BitPairReference: the records, the per-reference record
ranges and buffer start offsets (each with a cap entry), the bit-packed
byte buffer and its size in bases. -/
structure BitPairReference where
  recs : List RefRecord
  refRecOffs : List Nat
  refOffs : List Nat
  refLens : List Nat
  buf : List Nat
  bufSz : Nat
deriving DecidableEq

/-- Decoding one base from the packed buffer (reference.h lines
198-201): byte index bufOff >> 2, shift (bufOff & 3) << 1, code
(buf[byte] >> shift) & 3. -/
def decodeBase (buf : List Nat) (bufOff : Nat) : Nat :=
  (buf.getD (bufOff / 4) 0 >>> ((bufOff % 4) * 2)) &&& 3

/-- The reference sequence a record list and buffer denote: each record
contributes off ambiguous bases (code 4) and then len bases decoded
from the buffer.  This is the sequence "built into the files". -/
def expandRecs (buf : List Nat) : List RefRecord → Nat → List Nat
  | [], _ => []
  | r :: rs, bufOff =>
    List.replicate r.off 4
      ++ (List.range r.len).map (fun x => decodeBase buf (bufOff + x))
      ++ expandRecs buf rs (bufOff + r.len)

/-- Loop body of BitPairReference::getBase (lines 186-207), scanning
the records of the target reference with the running text offset bound
off and buffer offset bufOff; returns 4 for ambiguous or past-the-end
positions. -/
def getBaseGo (buf : List Nat) : List RefRecord → Nat → Nat → Nat → Nat
  | [], _, _, _ => 4
  | r :: rs, toff, off, bufOff =>
    let off2 := off + r.off
    if toff < off2 then 4
    else
      let recOff := off2 + r.len
      if toff < recOff then decodeBase buf (bufOff + (toff - off2))
      else getBaseGo buf rs toff recOff (bufOff + r.len)

/-- BitPairReference::getBase (lines 179-208). -/
def getBase (ref : BitPairReference) (tidx toff : Nat) : Nat :=
  let reci := ref.refRecOffs.getD tidx 0
  let recf := ref.refRecOffs.getD (tidx + 1) 0
  getBaseGo ref.buf ((ref.recs.drop reci).take (recf - reci)) toff 0
    (ref.refOffs.getD tidx 0)

/-- Loop body of BitPairReference::getStretch (lines 229-258): per
record, emit 4 while toff lies in the ambiguous prefix, then advance
bufOff by (toff - off) - the step that overshoots when toff skips the
whole record - and copy decoded bases while toff lies in the record;
any chars left after all records are ambiguous. -/
def getStretchGo (buf : List Nat) :
    List RefRecord → Nat → Nat → Nat → Nat → List Nat
  | [], _, _, _, count => List.replicate count 4
  | r :: rs, toff, off, bufOff, count =>
    let off2 := off + r.off
    let amb := min (off2 - toff) count
    let toff2 := toff + amb
    let count2 := count - amb
    if count2 = 0 then List.replicate amb 4
    else
      let bufOff2 := bufOff + (toff2 - off2)
      let off3 := off2 + r.len
      let cpy := min (off3 - toff2) count2
      let copied := (List.range cpy).map (fun x => decodeBase buf (bufOff2 + x))
      let count3 := count2 - cpy
      if count3 = 0 then List.replicate amb 4 ++ copied
      else
        List.replicate amb 4 ++ copied
          ++ getStretchGo buf rs (toff2 + cpy) off3 (bufOff2 + cpy) count3

/-- BitPairReference::getStretch (lines 217-259). -/
def getStretch (ref : BitPairReference) (tidx toff count : Nat) : List Nat :=
  let reci := ref.refRecOffs.getD tidx 0
  let recf := ref.refRecOffs.getD (tidx + 1) 0
  getStretchGo ref.buf ((ref.recs.drop reci).take (recf - reci)) toff 0
    (ref.refOffs.getD tidx 0) count

/-- A loaded reference with one sequence of two records, each 4
unambiguous bases, no ambiguous gaps; the packed buffer holds bases
0,1,2,3,3,2,1,0 (bytes 0xE4 and 0x1B). -/
def refBug : BitPairReference :=
  { recs := [⟨0, 4, true⟩, ⟨0, 4, false⟩]
    refRecOffs := [0, 2]
    refOffs := [0, 8]
    refLens := [8]
    buf := [228, 27]
    bufSz := 8 }

/-- A little-endian u32 read from the first four bytes. -/
def leU32 (bs : List Nat) : Nat :=
  bs.getD 0 0 % 256 + bs.getD 1 0 % 256 * 256 + bs.getD 2 0 % 256 * 65536
    + bs.getD 3 0 % 256 * 16777216

/-- endianSwapU32. -/
def endianSwapU32 (x : Nat) : Nat :=
  x / 16777216 % 256 + x / 65536 % 256 * 256 + x / 256 % 256 * 65536
    + x % 256 * 16777216

/-- The distinct user-facing diagnostics the load emits on cerr; each
constructor stands for one message site in the constructor. -/
inductive LoadMsg where
  | missing3
  | shortWord3
  | shortCount3
  | shortRecord
  | missing4
  | short4
deriving DecidableEq

/-- Outcome of the BitPairReference constructor: notLoaded models
printing the message and returning with loaded_ = false; fatal models
printing the message and calling exit(1); ok models a completed load. -/
inductive LoadResult where
  | notLoaded (m : LoadMsg)
  | fatal (m : LoadMsg)
  | ok (ref : BitPairReference)
deriving DecidableEq

def LoadResult.isOk : LoadResult → Bool
  | .ok _ => true
  | _ => false

/-- Modelled from the spec: the RefRecord reader RefRecord(FILE, swap)
lives in ref_read.h, which is not under src; per the spec a record is
off:u32, len:u32, first:u8, with the u32 fields endian-swapped when
swap is set, and a short read is an input error surfaced like the other
header reads. -/
def readRecord (swap : Bool) (bs : List Nat) : Option (RefRecord × List Nat) :=
  if bs.length < 9 then none
  else
    let off := leU32 (bs.take 4)
    let len := leU32 ((bs.drop 4).take 4)
    some (⟨if swap then endianSwapU32 off else off,
           if swap then endianSwapU32 len else len,
           bs.getD 8 0 % 256 ≠ 0⟩, bs.drop 9)

/-- Read sz records in order. -/
def readRecords (swap : Bool) : Nat → List Nat → List RefRecord → Option (List RefRecord)
  | 0, _, acc => some acc.reverse
  | Nat.succ n, bs, acc =>
    match readRecord swap bs with
    | none => none
    | some (r, rest) => readRecords swap n rest (r :: acc)

/-- The record scan of the constructor (lines 72-89): builds nrefs,
cumsz, cumlen and the per-reference tables refRecOffs, refOffs,
refLens.  On a first record: push the record index and current cumsz,
finalize the previous reference length, reset cumlen.  Every record
adds len to cumsz and off + len to cumlen. -/
def scanRecords :
    List RefRecord → Nat → Nat → Nat → Nat →
      List Nat → List Nat → List Nat →
        Nat × Nat × Nat × List Nat × List Nat × List Nat
  | [], _, nrefs, cumsz, cumlen, rro, ro, rl => (nrefs, cumsz, cumlen, rro, ro, rl)
  | r :: rs, i, nrefs, cumsz, cumlen, rro, ro, rl =>
    if r.fb then
      scanRecords rs (i + 1) (nrefs + 1) (cumsz + r.len) (r.off + r.len)
        (rro ++ [i]) (ro ++ [cumsz]) (if 0 < nrefs then rl ++ [cumlen] else rl)
    else
      scanRecords rs (i + 1) nrefs (cumsz + r.len) (cumlen + r.off + r.len)
        rro ro rl

/-- The scan of all records with the initial accumulators of the
constructor. -/
def scanned (recs : List RefRecord) :
    Nat × Nat × Nat × List Nat × List Nat × List Nat :=
  scanRecords recs 0 0 0 0 [] [] []

/-- cumsz rounded up to the nearest multiple of 4 (lines 99-101). -/
def roundCumsz (c : Nat) : Nat :=
  if c % 4 ≠ 0 then c + (4 - c % 4) else c

/-- Tail of the constructor once the records are in hand (lines
90-125): store the cap entries, round cumsz up to a byte boundary, open
and read ceil(cumsz/4) bytes of the .4 file. -/
def loadFrom4 (recs : List RefRecord) (f4 : Option (List Nat)) : LoadResult :=
  match f4 with
  | none => .notLoaded .missing4
  | some b4 =>
    if b4.length < roundCumsz (scanned recs).2.1 / 4 then .fatal .short4
    else
      .ok { recs := recs
            refRecOffs := (scanned recs).2.2.2.1 ++ [recs.length]
            refOffs := (scanned recs).2.2.2.2.1 ++ [(scanned recs).2.1]
            refLens := (scanned recs).2.2.2.2.2 ++ [(scanned recs).2.2.1]
            buf := b4.take (roundCumsz (scanned recs).2.1 / 4)
            bufSz := (scanned recs).2.1 }

/-- Reading the .3 header and records (lines 46-97): the endianness
sentinel, the record count, then the records.  Note the release
semantics of the sentinel check (lines 53-56): any sentinel other than
1 sets swap and continues; only a debug assertion compares it to
0x01000000. -/
def loadFrom3 (b3 : List Nat) (f4 : Option (List Nat)) : LoadResult :=
  if b3.length < 4 then .fatal .shortWord3
  else if (b3.drop 4).length < 4 then .fatal .shortCount3
  else
    match readRecords (decide (leU32 (b3.take 4) ≠ 1))
        (if decide (leU32 (b3.take 4) ≠ 1)
          then endianSwapU32 (leU32 ((b3.drop 4).take 4))
          else leU32 ((b3.drop 4).take 4))
        ((b3.drop 4).drop 4) [] with
    | none => .fatal .shortRecord
    | some recs => loadFrom4 recs f4

/-- The BitPairReference constructor on the byte contents of the .3 and
.4 files (none models a missing file). -/
def loadBitPairReference (f3 f4 : Option (List Nat)) : LoadResult :=
  match f3 with
  | none => .notLoaded .missing3
  | some b3 => loadFrom3 b3 f4

structure BtConfig where
  qlen : Nat
  qry0 : List Nat
  qual : List Nat
  unrevOff : Nat
  oneRevOff : Nat
  twoRevOff : Nat
  qualThresh : Nat
  halfAndHalf : Bool
  reportSeedlings : Nat
  muts : List QueryMutation
  fchr : Nat → Nat
  lf : Nat → Nat → Nat
  ftabChars : Nat
  ftabHi : Nat → Nat
  ftabLo : Nat → Nat
  accept : Nat → Bool
  rand : Nat → Nat

/-- A hit as delivered to the sink by reportChaseOne: the first
stackDepth entries of _mms, the reported stackDepth and the row. -/
structure Hit where
  mms : List Nat
  k : Nat
  row : Nat
deriving DecidableEq

/-- Ghost record of one arena access (read or write): which arena, the
global index, and the stack depth of the accessing frame. -/
structure Acc where
  isElims : Bool
  idx : Nat
  k : Nat
deriving DecidableEq

/-- Ghost record of one recursive invocation: its stack depth and its
pairs/elims base offsets. -/
structure FrameLog where
  k : Nat
  pB : Nat
  eB : Nat
deriving DecidableEq

structure BtState where
  qry : List Nat
  chars : Nat → Nat
  mms : Nat → Nat
  pairs : Nat → Nat
  elims : Nat → Nat
  seedlings : List Nat
  hits : List Hit
  randCnt : Nat
  acc : List Acc
  frames : List FrameLog

def nextU32 (cfg : BtConfig) (st : BtState) : Nat × BtState :=
  (cfg.rand st.randCnt, { st with randCnt := st.randCnt + 1 })

def rdPairs (k : Nat) (st : BtState) (i : Nat) : Nat × BtState :=
  (st.pairs i, { st with acc := ⟨false, i, k⟩ :: st.acc })

def wrPairs (k : Nat) (st : BtState) (i v : Nat) : BtState :=
  { st with pairs := fun j => if j = i then v else st.pairs j
            acc := ⟨false, i, k⟩ :: st.acc }

def rdElims (k : Nat) (st : BtState) (i : Nat) : Nat × BtState :=
  (st.elims i, { st with acc := ⟨true, i, k⟩ :: st.acc })

def wrElims (k : Nat) (st : BtState) (i v : Nat) : BtState :=
  { st with elims := fun j => if j = i then v else st.elims j
            acc := ⟨true, i, k⟩ :: st.acc }

def setMms (st : BtState) (i v : Nat) : BtState :=
  { st with mms := fun j => if j = i then v else st.mms j }

def setChars (st : BtState) (i v : Nat) : BtState :=
  { st with chars := fun j => if j = i then v else st.chars j }

/-- applyMutations (lines 1099-1113): write newBase at pos, in order. -/
def applyMutations (muts : List QueryMutation) (q : List Nat) : List Nat :=
  muts.foldl (fun qq m => qq.set m.pos m.newBase) q

/-- undoMutations (lines 1115-1129): write oldBase at pos, in order. -/
def undoMutations (muts : List QueryMutation) (q : List Nat) : List Nat :=
  muts.foldl (fun qq m => qq.set m.pos m.oldBase) q

/-- The mms splice in report (lines 1143-1148):
_mms[stackDepth + i] = muts[i].pos. -/
def spliceMms (sd : Nat) (muts : List QueryMutation) (mms : Nat → Nat) :
    Nat → Nat :=
  fun j =>
    if sd ≤ j ∧ j - sd < muts.length then (muts.getD (j - sd) ⟨0, 0, 0⟩).pos
    else mms j

/-- The row rotation of reportHit (lines 1166-1181): starting at a
random row r in [top, bot), ask the sink about r, r+1, ... wrapping at
bot, until a row is accepted. -/
def chase (cfg : BtConfig) (h : Hit) (bot spread : Nat) :
    Nat → Nat → BtState → Bool × BtState
  | 0, _, st => (false, st)
  | Nat.succ n, ri0, st =>
    let ri := if bot ≤ ri0 then ri0 - spread else ri0
    if cfg.accept ri then
      (true, { st with hits := { h with row := ri } :: st.hits })
    else chase cfg h bot spread n (ri0 + 1) st

/-- reportHit (lines 1163-1187), in the implemented _oneHit branch.  A
spread of zero makes the modulo undefined (the call sites guarantee
top < bot); modelled as none. -/
def reportHitM (cfg : BtConfig) (sd top bot : Nat) (st : BtState) :
    Option (Bool × BtState) :=
  if bot - top = 0 then none
  else
    let x := nextU32 cfg st
    let r := top + x.1 % (bot - top)
    some (chase cfg ⟨(List.range sd).map x.2.mms, sd, 0⟩ bot (bot - top)
      (bot - top) r x.2)

/-- reportSeedling (lines 1193-1212): append the seedling byte stream
to the seedling sink. -/
def reportSeedlingM (cfg : BtConfig) (sd : Nat) (st : BtState) : BtState :=
  { st with seedlings :=
      st.seedlings ++ seedlingBytes cfg.qlen st.mms st.chars sd }

/-- report (lines 1131-1157).  In seedling mode, report the seedling
and keep going.  Otherwise undo the mutations, splice the mutation
positions into _mms after the path entries (when a mutation set is
present, modelled as a nonempty list), report the hit with the enlarged
stack depth, and reapply the mutations before returning. -/
def reportM (cfg : BtConfig) (sd top bot : Nat) (st : BtState) :
    Option (Bool × BtState) :=
  if cfg.reportSeedlings ≠ 0 then some (false, reportSeedlingM cfg sd st)
  else
    let st1 := { st with qry := undoMutations cfg.muts st.qry }
    let st2 :=
      if cfg.muts.length ≠ 0 then
        { st1 with mms := spliceMms sd cfg.muts st1.mms }
      else st1
    let sd2 := if cfg.muts.length ≠ 0 then sd + cfg.muts.length else sd
    match reportHitM cfg sd2 top bot st2 with
    | none => none
    | some (b, st3) =>
      some (b, { st3 with qry := applyMutations cfg.muts st3.qry })

/-- One target candidate: position i, substituted base j, its arrow
pair, and its quality. -/
structure Tgt where
  ti : Nat
  tj : Nat
  btop : Nat
  bbot : Nat
  qi : Nat
deriving DecidableEq

/-- Inner loop of the backtrack-target scan (lines 718-737): iterate j
over the non-eliminated pairs at position i, accumulating spreads until
the random index r falls inside one. -/
def chooseJGo (k pB i e r qi : Nat) :
    List Nat → Nat → BtState → Option Tgt × Nat × BtState
  | [], cum, st => (none, cum, st)
  | j :: js, cum, st =>
    if e &&& (1 <<< j) = 0 then
      let p1 := rdPairs k st (pB + i * 8 + j)
      let p2 := rdPairs k p1.2 (pB + i * 8 + j + 4)
      let cum2 := cum + (p2.1 - p1.1)
      if r < cum2 then (some ⟨i, j, p1.1, p2.1, qi⟩, cum2, p2.2)
      else chooseJGo k pB i e r qi js cum2 p2.2
    else chooseJGo k pB i e r qi js cum st

/-- Outer loop of the backtrack-target scan (lines 706-740): i runs
from the frame entry depth up to d, skipping unrevisitable positions,
considering positions whose quality equals lowAltQual and which still
have a non-eliminated pair. -/
def chooseTargetGo (cfg : BtConfig) (k pB eB unrev lowq r : Nat) :
    Nat → Nat → Nat → BtState → Option Tgt × BtState
  | _, 0, _, st => (none, st)
  | i, Nat.succ n, cum, st =>
    if i < unrev then chooseTargetGo cfg k pB eB unrev lowq r (i + 1) n cum st
    else
      let qi := QUAL (cfg.qual.getD (cfg.qlen - i - 1) 0)
      let e := rdElims k st (eB + i)
      if qi = lowq ∧ e.1 ≠ 15 then
        match chooseJGo k pB i e.1 r qi [0, 1, 2, 3] cum e.2 with
        | (some t, _, st2) => (some t, st2)
        | (none, cum2, st2) =>
          chooseTargetGo cfg k pB eB unrev lowq r (i + 1) n cum2 st2
      else chooseTargetGo cfg k pB eB unrev lowq r (i + 1) n cum e.2

/-- Inner loop of the eligibility rescan (lines 856-873): iterate l
over the non-eliminated pairs at position kk. -/
def rescanL (k pB eB kk kq : Nat) :
    List Nat → Nat → Nat → Nat → Bool → BtState →
      Nat × Nat × Nat × Bool × BtState
  | [], lowq, en, es, over, st => (lowq, en, es, over, st)
  | l :: ls, lowq, en, es, over, st =>
    let e := rdElims k st (eB + kk)
    let hit := decide (e.1 &&& (1 <<< l) = 0)
    let pr :=
      if hit then
        let p1 := rdPairs k e.2 (pB + kk * 8 + l)
        let p2 := rdPairs k p1.2 (pB + kk * 8 + l + 4)
        (p2.1 - p1.1, p2.2)
      else (0, e.2)
    let lowq2 := if hit && over then kq else lowq
    let en2 := (if hit && over then 0 else en) + (if hit then 1 else 0)
    let es2 := (if hit && over then 0 else es) + (if hit then pr.1 else 0)
    let over2 := over && !hit
    rescanL k pB eB kk kq ls lowq2 en2 es2 over2 pr.2

/-- The eligibility rescan (lines 841-877): after draining the current
quality tier, re-derive lowAltQual, eligibleNum and eligibleSz from the
remaining non-eliminated pairs of the alternative positions in
[depth, d]. -/
def rescanGo (cfg : BtConfig) (k pB eB unrev ham : Nat) :
    List Nat → Nat → Nat → Nat → BtState → Nat × Nat × Nat × BtState
  | [], lowq, en, es, st => (lowq, en, es, st)
  | kk :: ks, lowq, en, es, st =>
    let rawq := cfg.qual.getD (cfg.qlen - kk - 1) 0
    let kq := QUAL rawq
    if isAlternative unrev kk ham cfg.qualThresh rawq then
      if kq ≤ lowq then
        let rs := rescanL k pB eB kk kq [0, 1, 2, 3] lowq en es
          (decide (kq < lowq)) st
        rescanGo cfg k pB eB unrev ham ks rs.1 rs.2.1 rs.2.2.1 rs.2.2.2.2
      else rescanGo cfg k pB eB unrev ham ks lowq en es st
    else rescanGo cfg k pB eB unrev ham ks lowq en es st

/-- A sequence of pairs-arena writes, leftmost first. -/
def wrPairsList (k : Nat) : List (Nat × Nat) → BtState → BtState
  | [], st => st
  | iv :: rest, st => wrPairsList k rest (wrPairs k st iv.1 iv.2)

/-- Seeding the depth-0 quartet from _fchr (lines 565-569). -/
def fchrInit (cfg : BtConfig) (k pB : Nat) (st : BtState) : BtState :=
  wrPairsList k
    [(pB + 0, cfg.fchr 0), (pB + 4, cfg.fchr 1), (pB + 1, cfg.fchr 1),
     (pB + 5, cfg.fchr 2), (pB + 2, cfg.fchr 2), (pB + 6, cfg.fchr 3),
     (pB + 3, cfg.fchr 3), (pB + 7, cfg.fchr 4)] st

/-- mapLFEx (line 576): compute the full quartet of arrow pairs at
depth d by an LF step on both arrow ends (the preceding bzero writes
the same eight slots and is subsumed by these writes). -/
def lfExWrite (cfg : BtConfig) (k pB d top bot : Nat) (st : BtState) : BtState :=
  wrPairsList k
    [(pB + d * 8 + 0, cfg.lf top 0), (pB + d * 8 + 1, cfg.lf top 1),
     (pB + d * 8 + 2, cfg.lf top 2), (pB + d * 8 + 3, cfg.lf top 3),
     (pB + d * 8 + 4, cfg.lf bot 0), (pB + d * 8 + 5, cfg.lf bot 1),
     (pB + d * 8 + 6, cfg.lf bot 2), (pB + d * 8 + 7, cfg.lf bot 3)] st

/-- Updating elims, altNum, eligibleNum, eligibleSz and lowAltQual from
the just-computed quartet (lines 595-627). -/
def elimFold (k pB eB d c q : Nat) (curElig : Bool) :
    List Nat → Nat → Nat → Nat → Nat → Bool → BtState →
      Nat × Nat × Nat × Nat × BtState
  | [], alt, en, es, lowq, _, st => (alt, en, es, lowq, st)
  | i :: is2, alt, en, es, lowq, over, st =>
    let p1 := rdPairs k st (pB + d * 8 + i)
    let p2 := rdPairs k p1.2 (pB + d * 8 + i + 4)
    let spread := p2.1 - p1.1
    let stA :=
      if spread = 0 then
        let e0 := rdElims k p2.2 (eB + d)
        wrElims k e0.2 (eB + d) (e0.1 ||| (1 <<< i))
      else p2.2
    let e := rdElims k stA (eB + d)
    let cand := decide (i ≠ c) && decide (0 < spread)
      && decide (e.1 &&& (1 <<< i) = 0)
    let doElig := cand && curElig
    let lowq2 := if doElig && over then q else lowq
    let en2 := (if doElig && over then 0 else en) + (if doElig then 1 else 0)
    let es2 := (if doElig && over then 0 else es)
      + (if doElig then spread else 0)
    let alt2 := alt + (if cand then 1 else 0)
    let over2 := over && !doElig
    elimFold k pB eB d c q curElig is2 alt2 en2 es2 lowq2 over2 e.2

/-- The entry checks of the recursive backtrack in half-and-half mode
(lines 470-491): a frame starting exactly at the 5-prime boundary needs
at least one mismatch, one starting exactly at the 3-prime boundary at
least two.  The constructor fixes _5depth = _1revOff and
_3depth = _2revOff. -/
def halfGate (cfg : BtConfig) (k depth : Nat) : Bool :=
  if cfg.halfAndHalf then
    if depth = cfg.oneRevOff then decide (1 ≤ k)
    else if depth = cfg.twoRevOff then decide (2 ≤ k)
    else true
  else true

/-- One recursion frame of the recursive backtrack: stack depth, entry
depth, the three region boundaries, the weighted hamming distance so
far and at entry, and the arena base offsets. -/
structure Fr where
  k : Nat
  depth : Nat
  unrev : Nat
  oneRev : Nat
  twoRev : Nat
  ham : Nat
  iham : Nat
  pB : Nat
  eB : Nat

/-- Result of the mismatch loop: either the frame returns b, or the
loop exits and the walk continues with the updated bookkeeping. -/
inductive LoopRes where
  | ret (b : Bool) (st : BtState)
  | cont (alt en es lowq : Nat) (st : BtState)

/-- The per-depth bookkeeping the walk computes before running the
mismatch loop: the advanced interval, the updated eligibility counters
and the state after the quartet computation, the elims update and the
possible seedling report. -/
structure WalkStep where
  top2 : Nat
  bot2 : Nat
  alt2 : Nat
  en2 : Nat
  es2 : Nat
  lowq2 : Nat
  kg : Bool
  st5 : BtState

/-- One iteration of the walk before the mismatch loop (lines 513-677):
compute the quartet (from fchr at an uninitialized root, by mapLFEx at
an alternative position, or by two mapLF calls otherwise), update elims
and the eligibility bookkeeping, report a seedling when the match is
complete in seedling mode, and decide keepGoingDespiteMatch. -/
def walkStep (cfg : BtConfig) (fr : Fr) (d top bot alt en es lowq : Nat)
    (st : BtState) : WalkStep :=
  let cur := cfg.qlen - d - 1
  let c := st.qry.getD cur 0
  let rawq := cfg.qual.getD cur 0
  let q := QUAL rawq
  let curAlt := isAlternative fr.unrev d fr.ham cfg.qualThresh rawq
  let curElig := curAlt && decide (q ≤ lowq)
  let curOver := curAlt && decide (q < lowq)
  let m :=
    if top = 0 ∧ bot = 0 then
      let sA := fchrInit cfg fr.k fr.pB st
      let p1 := rdPairs fr.k sA (fr.pB + d * 8 + c)
      let p2 := rdPairs fr.k p1.2 (fr.pB + d * 8 + c + 4)
      (p1.1, p2.1, p2.2)
    else if curAlt then
      let sA := lfExWrite cfg fr.k fr.pB d top bot st
      let p1 := rdPairs fr.k sA (fr.pB + d * 8 + c)
      let p2 := rdPairs fr.k p1.2 (fr.pB + d * 8 + c + 4)
      (p1.1, p2.1, p2.2)
    else (cfg.lf top c, cfg.lf bot c, st)
  let top2 := m.1
  let bot2 := m.2.1
  let st3 := wrElims fr.k m.2.2 (fr.eB + d) (1 <<< c)
  let b :=
    if curAlt then
      elimFold fr.k fr.pB fr.eB d c q curElig [0, 1, 2, 3] alt en es lowq
        curOver st3
    else (alt, en, es, lowq, st3)
  let alt2 := b.1
  let en2 := b.2.1
  let es2 := b.2.2.1
  let lowq2 := b.2.2.2.1
  let st4 := b.2.2.2.2
  let kgSeed := decide (cur = 0) && decide (top2 < bot2)
    && decide (fr.k < cfg.reportSeedlings) && decide (0 < cfg.reportSeedlings)
    && decide (0 < alt2)
  let st5 :=
    if kgSeed && decide (0 < fr.k) then reportSeedlingM cfg fr.k st4 else st4
  let kg :=
    if kgSeed then true
    else if cfg.halfAndHalf && decide (d + 1 = cfg.oneRevOff)
        && decide (top2 < bot2) then decide (fr.k = 0)
    else if cfg.halfAndHalf && decide (d + 1 = cfg.twoRevOff)
        && decide (top2 < bot2) then decide (fr.k < 2)
    else false
  ⟨top2, bot2, alt2, en2, es2, lowq2, kg, st5⟩

mutual

/-- The recursive backtrack (lines 418-922): ghost-log the frame, apply
the half-and-half entry checks, then run the forward matching walk. -/
def btrec : Nat → BtConfig → Fr → Nat → Nat → BtState → Option (Bool × BtState)
  | 0, _, _, _, _, _ => none
  | Nat.succ fuel, cfg, fr, top, bot, st =>
    let st1 := { st with frames := ⟨fr.k, fr.pB, fr.eB⟩ :: st.frames }
    if halfGate cfg fr.k fr.depth then
      btwalk fuel cfg fr fr.depth top bot 0 0 0 255 st1
    else some (false, st1)
termination_by structural fuel => fuel

/-- The forward matching walk (lines 513-921): at each depth d compute
the quartet (from fchr at an uninitialized root, by mapLFEx at an
alternative position, or by two mapLF calls otherwise), update elims
and the eligibility bookkeeping, decide keepGoingDespiteMatch, run the
mismatch loop, and either fail, match one more character, or - once the
whole pattern is consumed - report. -/
def btwalk : Nat → BtConfig → Fr → Nat → Nat → Nat → Nat → Nat → Nat → Nat →
    BtState → Option (Bool × BtState)
  | 0, _, _, _, _, _, _, _, _, _, _ => none
  | Nat.succ fuel, cfg, fr, d, top, bot, alt, en, es, lowq, st =>
    if d < cfg.qlen then
      let w := walkStep cfg fr d top bot alt en es lowq st
      match btloop fuel cfg fr d w.top2 w.bot2 w.alt2 w.en2 w.es2 w.lowq2 w.kg
          w.st5 with
      | none => none
      | some (.ret rb st6) => some (rb, st6)
      | some (.cont alt3 en3 es3 lowq3 st6) =>
        if w.top2 = w.bot2 ∧ alt3 = 0 then some (false, st6)
        else
          let st7 := setChars st6 d (st6.qry.getD (cfg.qlen - d - 1) 0)
          btwalk fuel cfg fr (d + 1) w.top2 w.bot2 alt3 en3 es3 lowq3 st7
    else
      if cfg.reportSeedlings ≤ fr.k then reportM cfg fr.k top bot st
      else some (false, st)
termination_by structural fuel => fuel

/-- The mismatch loop (lines 678-884): while the interval is closed
with alternatives remaining, or keepGoingDespiteMatch is set, choose a
random eligible target, recurse on it (or report directly when the
target is the last position), and on failure eliminate the target,
update the bookkeeping and retry; with no alternatives left the frame
fails. -/
def btloop : Nat → BtConfig → Fr → Nat → Nat → Nat → Nat → Nat → Nat → Nat →
    Bool → BtState → Option LoopRes
  | 0, _, _, _, _, _, _, _, _, _, _, _ => none
  | Nat.succ fuel, cfg, fr, d, top, bot, alt, en, es, lowq, kg, st =>
    if (top = bot ∧ 0 < alt) ∨ kg = true then
      if es = 0 then none
      else
        let x := nextU32 cfg st
        let r := x.1 % es
        match chooseTargetGo cfg fr.k fr.pB fr.eB fr.unrev lowq r fr.depth
            (d + 1 - fr.depth) 0 x.2 with
        | (none, _) => none
        | (some t, st2) =>
          let btham := fr.ham + t.qi
          let reg := tighten cfg.halfAndHalf cfg.twoRevOff fr.unrev fr.oneRev
            fr.twoRev t.ti
          let icur := cfg.qlen - t.ti - 1
          let st4 := setChars (setMms st2 fr.k icur) t.ti (acgtChar t.tj)
          let res :=
            if t.ti + 1 = cfg.qlen then reportM cfg (fr.k + 1) t.btop t.bbot st4
            else
              btrec fuel cfg
                ⟨fr.k + 1, t.ti + 1, reg.1, reg.2.1, reg.2.2, btham, fr.iham,
                  fr.pB + cfg.qlen * 8, fr.eB + cfg.qlen⟩
                t.btop t.bbot st4
          match res with
          | none => none
          | some (true, st5) => some (.ret true st5)
          | some (false, st5) =>
            let st6 := setChars st5 t.ti (st5.qry.getD icur 0)
            let e := rdElims fr.k st6 (fr.eB + t.ti)
            let st7 := wrElims fr.k e.2 (fr.eB + t.ti) (e.1 ||| (1 <<< t.tj))
            let es2 := es - (t.bbot - t.btop)
            let en2 := en - 1
            let alt2 := alt - 1
            if alt2 = 0 then some (.ret false st7)
            else if en2 = 0 then
              let rs := rescanGo cfg fr.k fr.pB fr.eB fr.unrev fr.ham
                (List.range' fr.depth (d + 1 - fr.depth)) 255 en2 es2 st7
              btloop fuel cfg fr d top bot alt2 rs.2.1 rs.2.2.1 rs.1 false
                rs.2.2.2
            else btloop fuel cfg fr d top bot alt2 en2 es2 lowq false st7
    else some (.cont alt en es lowq st)
termination_by structural fuel => fuel

end

/-- The middle backtrack entry (lines 298-408): run the recursive
backtracker at stack depth 0 from the given depth and interval with the
constructor region boundaries (the sanity-checking and oracle
cross-checks around it is debug-only code). -/
def backtrackFrom (cfg : BtConfig) (fuel depth top bot iham : Nat)
    (st : BtState) : Option (Bool × BtState) :=
  btrec fuel cfg
    ⟨0, depth, cfg.unrevOff, cfg.oneRevOff, cfg.twoRevOff, iham, iham, 0, 0⟩
    top bot st

/-- The ftab key of the last ftabChars characters of the read (lines
246-255): the rightmost character lands in the least significant bit
pair. -/
def ftabOffOf (cfg : BtConfig) (qry : List Nat) : Nat :=
  (List.range' 1 (cfg.ftabChars - 1)).reverse.foldl
    (fun a i => a * 4 + qry.getD (cfg.qlen - i) 0)
    (qry.getD (cfg.qlen - cfg.ftabChars) 0)

/-- The top-level backtrack entry (lines 237-289): use the ftab when it
does not extend past the unrevisitable portion, reporting directly when
the ftab consumes the whole pattern (restarting from depth 0 in
seedling mode), and otherwise start the recursive search at depth 0
with an uninitialized interval. -/
def backtrackEntry (cfg : BtConfig) (fuel ham : Nat) (st : BtState) :
    Option (Bool × BtState) :=
  if cfg.ftabChars ≤ min cfg.unrevOff cfg.qlen then
    let off := ftabOffOf cfg st.qry
    let top := cfg.ftabHi off
    let bot := cfg.ftabLo (off + 1)
    if cfg.qlen = cfg.ftabChars ∧ top < bot then
      if 0 < cfg.reportSeedlings then backtrackFrom cfg fuel 0 0 0 ham st
      else reportM cfg 0 top bot st
    else if top < bot then backtrackFrom cfg fuel cfg.ftabChars top bot ham st
    else some (false, st)
  else backtrackFrom cfg fuel 0 0 0 ham st

/-- The state after construction (lines 52-118): the mutation set is
applied to the read, the arenas are fresh, nothing has been reported. -/
def initSt (cfg : BtConfig) : BtState :=
  { qry := applyMutations cfg.muts cfg.qry0
    chars := fun _ => 0
    mms := fun _ => 0
    pairs := fun _ => 0
    elims := fun _ => 0
    seedlings := []
    hits := []
    randCnt := 0
    acc := []
    frames := [] }

/-- One backtrack call on a freshly constructed BacktrackManager. -/
def runBacktrack (cfg : BtConfig) (fuel iham : Nat) : Option (Bool × BtState) :=
  backtrackEntry cfg fuel iham (initSt cfg)

/-- _maxStackDepth (line 106): qlen - min(unrevOff, qlen) + 3 + 1. -/
def maxStackDepth (cfg : BtConfig) : Nat :=
  cfg.qlen - min cfg.unrevOff cfg.qlen + 3 + 1

def hitsOf (o : Option (Bool × BtState)) : List Hit :=
  (o.map (fun p => p.2.hits)).getD []

def qryOf (o : Option (Bool × BtState)) : Option (List Nat) :=
  o.map (fun p => p.2.qry)

def hitCountOf (o : Option (Bool × BtState)) : Option (Nat × Bool) :=
  o.map (fun p => (p.2.hits.length, p.1))

def accOf (o : Option (Bool × BtState)) : List Acc :=
  (o.map (fun p => p.2.acc)).getD []

def framesOf (o : Option (Bool × BtState)) : List FrameLog :=
  (o.map (fun p => p.2.frames)).getD []

/-- Sum of the internal qualities of the read positions in l. -/
def qualSumL (cfg : BtConfig) (l : List Nat) : Nat :=
  (l.map (fun p => QUAL (cfg.qual.getD p 0))).sum

/-- How many entries of l lie in [a, b). -/
def countIn (l : List Nat) (a b : Nat) : Nat :=
  (l.filter (fun x => decide (a ≤ x) && decide (x < b))).length

/-- Depths (from the search origin, i.e. qlen - 1 - offset) of the
backtrack-chosen mismatches of a hit: the reported list minus the
spliced mutation suffix. -/
def pathDepthsOf (cfg : BtConfig) (h : Hit) : List Nat :=
  (h.mms.take (h.k - cfg.muts.length)).map (fun p => cfg.qlen - 1 - p)

/-- A one-base read [A] with the mutation A to T at position 0 applied,
quality byte 73 (internal quality 40), qualThresh 0, and the whole read
unrevisitable.  With ftabChars = 1 the entry consumes the read via the
ftab and reports directly; the FmIndex collaborator supplies the
nonempty interval [30, 40) for the mutated read. -/
def cfgA : BtConfig :=
  { qlen := 1
    qry0 := [0]
    qual := [73]
    unrevOff := 1
    oneRevOff := 1
    twoRevOff := 1
    qualThresh := 0
    halfAndHalf := false
    reportSeedlings := 0
    muts := [⟨0, 0, 3⟩]
    fchr := fun i => [0, 10, 20, 30, 40].getD i 0
    lf := fun _ _ => 0
    ftabChars := 1
    ftabHi := fun x => if x = 3 then 30 else 0
    ftabLo := fun x => if x = 4 then 40 else 0
    accept := fun _ => true
    rand := fun _ => 0 }

/-- A two-base read [A, A] in half-and-half mode with 5depth =
oneRevOff = 1 and 3depth = twoRevOff = 2, quality 40 per base and
qualThresh 100.  The FmIndex collaborator: fchr gives depth-0 intervals
of spread 10, and the LF step maps row 0 to 0 and any other row to 5.
The forced mismatch at the 5-prime boundary picks the A arrow pair (its
child frame dead-ends), the walk then continues with zero mismatches
past the boundary, and the forced mismatch at the 3-prime boundary
(rand call 1 returns 20) lands on position 1, whose pair is reported
directly. -/
def cfgB : BtConfig :=
  { qlen := 2
    qry0 := [0, 0]
    qual := [73, 73]
    unrevOff := 0
    oneRevOff := 1
    twoRevOff := 2
    qualThresh := 100
    halfAndHalf := true
    reportSeedlings := 0
    muts := []
    fchr := fun i => [0, 10, 20, 30, 40].getD i 0
    lf := fun r _ => if r = 0 then 0 else 5
    ftabChars := 1
    ftabHi := fun _ => 0
    ftabLo := fun _ => 0
    accept := fun _ => true
    rand := fun n => if n = 1 then 20 else 0 }

/-- The state read has the mutation set applied (true after
construction and preserved by every call). -/
def QryApplied (cfg : BtConfig) (st : BtState) : Prop :=
  applyMutations cfg.muts st.qry = st.qry

/-- The helper changed none of the read, the mismatch array, the hit
list or the ghost frame log (only pairs, elims, chars, seedlings, the
PRNG counter and the ghost access log). -/
def Untouched (st st2 : BtState) : Prop :=
  st2.qry = st.qry ∧ st2.mms = st.mms ∧ st2.hits = st.hits
    ∧ st2.frames = st.frames

/-- An access of frame k whose index lies in the frame slice relative
to the bases pB and eB. -/
def AccPE (cfg : BtConfig) (k pB eB : Nat) (a : Acc) : Prop :=
  a.k = k ∧ ((a.isElims = true ∧ ∃ dd, dd < cfg.qlen ∧ a.idx = eB + dd)
    ∨ (a.isElims = false ∧ ∃ off, off < cfg.qlen * 8 ∧ a.idx = pB + off))

/-- The access log grew only by entries of frame k inside its slice. -/
def AccExt (cfg : BtConfig) (k pB eB : Nat) (st st2 : BtState) : Prop :=
  ∃ pre, st2.acc = pre ++ st.acc ∧ ∀ a ∈ pre, AccPE cfg k pB eB a

/-- Sum of the internal qualities over the first k mismatch entries. -/
def pathSum (cfg : BtConfig) (st : BtState) (k : Nat) : Nat :=
  qualSumL cfg ((List.range k).map st.mms)

/-- Depths of the first k mismatch entries. -/
def pathD (cfg : BtConfig) (st : BtState) (k : Nat) : List Nat :=
  (List.range k).map (fun j => cfg.qlen - 1 - st.mms j)

/-- The region facts of the current mismatch path that reports preserve
into hits. -/
def PathFacts (cfg : BtConfig) (st : BtState) (sd : Nat) : Prop :=
  (∀ x ∈ pathD cfg st sd, cfg.unrevOff ≤ x)
    ∧ countIn (pathD cfg st sd) cfg.unrevOff cfg.oneRevOff ≤ 1
    ∧ (cfg.halfAndHalf = false →
        countIn (pathD cfg st sd) cfg.oneRevOff cfg.twoRevOff ≤ 2)

/-- What holds of every hit the backtracker reports from initial ham
iham0: the reported stack depth includes the spliced mutation suffix;
the initial ham plus the quality sum over the backtrack-chosen part of
the reported list is within the budget; and the backtrack-chosen
mismatch depths respect the regions. -/
def GoodHit (cfg : BtConfig) (iham0 : Nat) (h : Hit) : Prop :=
  cfg.muts.length ≤ h.k
    ∧ iham0 + qualSumL cfg (h.mms.take (h.k - cfg.muts.length)) ≤ cfg.qualThresh
    ∧ (∀ x ∈ pathDepthsOf cfg h, cfg.unrevOff ≤ x)
    ∧ countIn (pathDepthsOf cfg h) cfg.unrevOff cfg.oneRevOff ≤ 1
    ∧ (cfg.halfAndHalf = false →
        countIn (pathDepthsOf cfg h) cfg.oneRevOff cfg.twoRevOff ≤ 2)

/-- The loop invariant on lowAltQual: untouched (0xff) or affordable
within the remaining budget. -/
def LowInv (cfg : BtConfig) (ham lowq : Nat) : Prop :=
  lowq = 255 ∨ ham + lowq ≤ cfg.qualThresh

/-- The C7 slice condition on one ghost access: the index lies in the
accessing frame slice of the respective arena. -/
def AccSlice (cfg : BtConfig) (a : Acc) : Prop :=
  if a.isElims = true then
    a.k * cfg.qlen ≤ a.idx ∧ a.idx < (a.k + 1) * cfg.qlen
  else a.k * cfg.qlen * 8 ≤ a.idx ∧ a.idx < (a.k + 1) * (cfg.qlen * 8)

/-- The C7 condition on one ghost frame entry: the arena bases follow
the frame stride and the stack depth is within _maxStackDepth. -/
def FrOk (cfg : BtConfig) (g : FrameLog) : Prop :=
  g.pB = g.k * cfg.qlen * 8 ∧ g.eB = g.k * cfg.qlen ∧ g.k ≤ maxStackDepth cfg

/-- The region invariant a frame maintains: facts about the mismatch
path recorded so far (depths within bounds and the two region counters)
and about the frame boundaries relative to the constructor ones. -/
def RegionPre (cfg : BtConfig) (k depth unrev oneRev twoRev : Nat)
    (st : BtState) : Prop :=
  (∀ x ∈ pathD cfg st k, cfg.unrevOff ≤ x ∧ x < depth)
    ∧ countIn (pathD cfg st k) cfg.unrevOff cfg.oneRevOff ≤ 1
    ∧ (1 ≤ countIn (pathD cfg st k) cfg.unrevOff cfg.oneRevOff →
        cfg.oneRevOff ≤ unrev)
    ∧ (cfg.halfAndHalf = false →
        (cfg.twoRevOff ≤ unrev
            ∧ countIn (pathD cfg st k) cfg.oneRevOff cfg.twoRevOff ≤ 2)
          ∨ (oneRev = cfg.twoRevOff
              ∧ countIn (pathD cfg st k) cfg.oneRevOff cfg.twoRevOff ≤ 1)
          ∨ countIn (pathD cfg st k) cfg.oneRevOff cfg.twoRevOff = 0)
    ∧ cfg.unrevOff ≤ unrev
    ∧ unrev ≤ oneRev
    ∧ cfg.oneRevOff ≤ oneRev
    ∧ oneRev ≤ cfg.twoRevOff
    ∧ cfg.oneRevOff ≤ twoRev
    ∧ (cfg.halfAndHalf = false → twoRev = cfg.twoRevOff)

/-- The full precondition of a frame. -/
def Pre (cfg : BtConfig) (iham0 : Nat) (fr : Fr) (st : BtState) : Prop :=
  fr.iham = iham0
    ∧ fr.ham ≤ cfg.qualThresh
    ∧ fr.ham = iham0 + pathSum cfg st fr.k
    ∧ fr.depth < cfg.qlen
    ∧ (fr.k = 0 ∨ cfg.unrevOff + fr.k ≤ fr.depth)
    ∧ fr.pB = fr.k * cfg.qlen * 8
    ∧ fr.eB = fr.k * cfg.qlen
    ∧ QryApplied cfg st
    ∧ (∀ j, j < cfg.qlen → st.qry.getD j 0 < 4)
    ∧ RegionPre cfg fr.k fr.depth fr.unrev fr.oneRev fr.twoRev st

/-- The postcondition of a frame: the read is restored; mismatch
entries below the frame depth are untouched; exactly one good hit is
appended when the frame returns true and none otherwise; and the ghost
logs grew only by slice-respecting accesses and well-based frames. -/
def Post (cfg : BtConfig) (iham0 k0 : Nat) (st st2 : BtState) (r : Bool) : Prop :=
  st2.qry = st.qry
    ∧ (∀ j, j < k0 → st2.mms j = st.mms j)
    ∧ (r = true → ∃ h, st2.hits = h :: st.hits ∧ GoodHit cfg iham0 h)
    ∧ (r = false → st2.hits = st.hits)
    ∧ (∃ pre, st2.acc = pre ++ st.acc ∧ ∀ a ∈ pre, AccSlice cfg a)
    ∧ (∃ pre, st2.frames = pre ++ st.frames ∧ ∀ g ∈ pre, FrOk cfg g)

/-- The state relation across loop iterations that do not report. -/
def ContPost (cfg : BtConfig) (k0 : Nat) (st st2 : BtState) : Prop :=
  st2.qry = st.qry
    ∧ (∀ j, j < k0 → st2.mms j = st.mms j)
    ∧ st2.hits = st.hits
    ∧ (∃ pre, st2.acc = pre ++ st.acc ∧ ∀ a ∈ pre, AccSlice cfg a)
    ∧ (∃ pre, st2.frames = pre ++ st.frames ∧ ∀ g ∈ pre, FrOk cfg g)

/-- The inductive statement for the recursive backtrack at a given fuel. -/
def MasterRecP (fuel : Nat) : Prop :=
  ∀ cfg iham0 fr top bot st r st2,
    cfg.unrevOff ≤ cfg.oneRevOff → cfg.oneRevOff ≤ cfg.twoRevOff →
    Pre cfg iham0 fr st →
    btrec fuel cfg fr top bot st = some (r, st2) →
    Post cfg iham0 fr.k st st2 r

/-- The inductive statement for the matching walk at a given fuel. -/
def MasterWalkP (fuel : Nat) : Prop :=
  ∀ cfg iham0 fr d top bot alt en es lowq st r st2,
    cfg.unrevOff ≤ cfg.oneRevOff → cfg.oneRevOff ≤ cfg.twoRevOff →
    Pre cfg iham0 fr st → fr.depth ≤ d → LowInv cfg fr.ham lowq →
    btwalk fuel cfg fr d top bot alt en es lowq st = some (r, st2) →
    Post cfg iham0 fr.k st st2 r

/-- The inductive statement for the mismatch loop at a given fuel. -/
def MasterLoopP (fuel : Nat) : Prop :=
  ∀ cfg iham0 fr d top bot alt en es lowq kg st out,
    cfg.unrevOff ≤ cfg.oneRevOff → cfg.oneRevOff ≤ cfg.twoRevOff →
    Pre cfg iham0 fr st → fr.depth ≤ d → d < cfg.qlen →
    LowInv cfg fr.ham lowq →
    btloop fuel cfg fr d top bot alt en es lowq kg st = some out →
    (∀ b st2, out = LoopRes.ret b st2 → Post cfg iham0 fr.k st st2 b)
      ∧ (∀ a2 e2 s2 lq2 st2, out = LoopRes.cont a2 e2 s2 lq2 st2 →
          ContPost cfg fr.k st st2 ∧ LowInv cfg fr.ham lq2)

/-! ### Theorems -/

theorem QUAL_le_222 (q : Nat) : QUAL q ≤ 222 := by
  unfold QUAL
  have h : q % 256 < 256 := Nat.mod_lt _ (by norm_num)
  split <;> omega

theorem encodeSeedlings_cons_cons (p c : Nat) (x : Nat × Nat)
    (l : List (Nat × Nat)) :
    encodeSeedlings ((p, c) :: x :: l) = p :: c :: 254 :: encodeSeedlings (x :: l) := by
  rfl

theorem decode_encode_seedlings (l : List (Nat × Nat)) :
    decodeSeedlings (encodeSeedlings l) = l := by
  induction l with
  | nil => rfl
  | cons x xs ih =>
    obtain ⟨p, c⟩ := x
    cases xs with
    | nil => rfl
    | cons y ys =>
      rw [encodeSeedlings_cons_cons, decodeSeedlings]
      rw [ih]

theorem seedlingBytesGo_eq_encode (qlen : Nat) (mms chars : Nat → Nat)
    (sd : Nat) :
    ∀ n, n ≤ sd →
      seedlingBytesGo qlen mms chars sd n
        = encodeSeedlings (((List.range sd).drop (sd - n)).map
            (fun i => (mms i % 256, dnaOfChar (chars (qlen - mms i - 1))))) := by
  intro n
  induction n with
  | zero =>
    intro _
    rw [List.drop_eq_nil_of_le (by simp)]
    rfl
  | succ n ih =>
    intro hle
    have hdrop : (List.range sd).drop (sd - Nat.succ n)
        = (sd - Nat.succ n) :: (List.range sd).drop (sd - n) := by
      have h1 : sd - Nat.succ n < sd := by omega
      rw [List.drop_eq_getElem_cons (by simpa using h1)]
      congr 1
      · simp
      · congr 1
        omega
    rw [hdrop]
    rcases Nat.eq_zero_or_pos n with hn | hn
    · subst hn
      have hnil : (List.range sd).drop (sd - 0) = [] := by
        rw [List.drop_eq_nil_of_le (by simp)]
      simp only [hnil]
      simp [seedlingBytesGo, encodeSeedlings]
    · have hlen : ((List.range sd).drop (sd - n)).length = n := by
        rw [List.length_drop, List.length_range]
        omega
      have hne : (List.range sd).drop (sd - n) ≠ [] := fun hcon => by
        rw [hcon] at hlen
        simp at hlen
        omega
      obtain ⟨y, ys, hys⟩ := List.exists_cons_of_ne_nil hne
      rw [List.map_cons, hys, List.map_cons, encodeSeedlings_cons_cons]
      have hfold : (mms y % 256, dnaOfChar (chars (qlen - mms y - 1))) ::
          List.map (fun i => (mms i % 256, dnaOfChar (chars (qlen - mms i - 1)))) ys
          = List.map (fun i => (mms i % 256, dnaOfChar (chars (qlen - mms i - 1))))
              ((List.range sd).drop (sd - n)) := by
        rw [hys]
        rfl
      rw [hfold, ← ih (by omega)]
      simp only [seedlingBytesGo]
      have hnz : ¬ n = 0 := by omega
      simp [hnz]

/-- C8.  Seedling encoding round trip: the bytes reportSeedling appends
for a seedling of sd mismatches are exactly the (pos, chr) pairs in
order with a single 0xfe separator between consecutive pairs and none
after the last (encodeSeedlings of seedPairs), and parsing that stream
reconstructs exactly the pairs in order. -/
theorem c8_seedling_roundtrip (qlen : Nat) (mms chars : Nat → Nat) (sd : Nat) :
    seedlingBytes qlen mms chars sd
        = encodeSeedlings (seedPairs qlen mms chars sd)
      ∧ decodeSeedlings (seedlingBytes qlen mms chars sd)
        = seedPairs qlen mms chars sd := by
  have h := seedlingBytesGo_eq_encode qlen mms chars sd sd (le_refl sd)
  have hz : sd - sd = 0 := by omega
  rw [hz, List.drop_zero] at h
  constructor
  · exact h
  · rw [seedlingBytes, h, decode_encode_seedlings]
    rfl

/-- C10.  The internal quality is the raw byte minus 33 when the byte is
at least 33 and 0 otherwise; a byte below 33 clamps to 0 instead of
wrapping around (so QUAL never exceeds 222 = 255 - 33), and the
alternative test of the budget and eligibility computations sees a
byte below 33 exactly as quality 0 (the same as raw byte 33). -/
theorem c10_qual_clamp (q : Nat) :
    (q % 256 < 33 → QUAL q = 0)
      ∧ (33 ≤ q % 256 → QUAL q = q % 256 - 33)
      ∧ QUAL q ≤ 222
      ∧ (∀ unrev d ham thresh, q % 256 < 33 →
          isAlternative unrev d ham thresh q = isAlternative unrev d ham thresh 33) := by
  refine ⟨fun h => ?_, fun h => ?_, QUAL_le_222 q, fun unrev d ham thresh h => ?_⟩
  · unfold QUAL
    rw [if_neg (by omega)]
  · unfold QUAL
    rw [if_pos h]
  · unfold isAlternative QUAL
    rw [if_neg (by omega)]
    norm_num

/-- C10 witness: applying the clamp theorem at raw quality byte 2. -/
theorem c10_qual_clamp_witness :
    (2 % 256 < 33)
      ∧ QUAL 2 = 0
      ∧ isAlternative 0 5 0 10 2 = isAlternative 0 5 0 10 33 :=
  ⟨by decide, (c10_qual_clamp 2).1 (by decide),
    (c10_qual_clamp 2).2.2.2 0 5 0 10 (by decide)⟩

/-- C4 counterexample.  In half-and-half mode with frame boundaries
unrev = 0, oneRev = 4, twoRev = 8 (the root frame itself) and target
i = 2 < twoRev, the source takes the i < oneRev branch and leaves
btTwoRevOff = 8 unchanged, while the claim (half-and-half and
i < twoRev implies btTwoRev = oneRev) demands btTwoRev = 4. -/
theorem c4_tighten_counterexample :
    tighten true 8 0 4 8 2 = (4, 8, 8)
      ∧ tightenClaim true 0 4 8 2 = (4, 8, 4)
      ∧ tighten true 8 0 4 8 2 ≠ tightenClaim true 0 4 8 2 := by
  refine ⟨rfl, rfl, ?_⟩
  decide

/-- C4 amended.  If i < oneRev, the recursive call gets
btUnrev = oneRev and btOneRev = _2revOff (the constructor boundary,
which equals the frame twoRev whenever the frame has not been tightened,
in particular always outside half-and-half mode) and btTwoRev unchanged;
else if i < twoRev, half-and-half gets btTwoRev = oneRev and otherwise
btOneRev = twoRev; else all three are unchanged. -/
theorem c4_tighten_amended (half : Bool) (t2 u o t i : Nat) :
    (i < o → tighten half t2 u o t i = (o, t2, t))
      ∧ (o ≤ i → i < t → half = false → tighten half t2 u o t i = (u, t, t))
      ∧ (o ≤ i → i < t → half = true → tighten half t2 u o t i = (u, o, o))
      ∧ (o ≤ i → t ≤ i → tighten half t2 u o t i = (u, o, t)) := by
  refine ⟨fun h => ?_, fun h1 h2 h3 => ?_, fun h1 h2 h3 => ?_, fun h1 h2 => ?_⟩
  · unfold tighten
    rw [if_pos h]
  · unfold tighten
    rw [if_neg (by omega), if_pos h2, h3]
    rfl
  · unfold tighten
    rw [if_neg (by omega), if_pos h2, h3]
    rfl
  · unfold tighten
    rw [if_neg (by omega), if_neg (by omega)]

/-- C4 amended witness: the non-half 1-revisitable case at
(unrev, oneRev, twoRev) = (0, 4, 8), i = 5. -/
theorem c4_tighten_amended_witness :
    (4 ≤ 5 ∧ 5 < 8 ∧ (false : Bool) = false)
      ∧ tighten false 8 0 4 8 5 = (0, 8, 8) :=
  ⟨⟨by decide, by decide, rfl⟩,
    (c4_tighten_amended false 8 0 4 8 5).2.1 (by decide) (by decide) rfl⟩

/-- C3 evaluation.  On refBug, base 5 of reference 0 is 2 - and
getBase returns 2, agreeing with the sequence built into the files -
but getStretch(tidx 0, toff 5, count 1) returns [1]: when the start
offset toff skips a whole record, the loop advances bufOff by
(toff - off) in every skipped record instead of by the record length,
so getStretch reads the wrong buffer position and is not the
concatenation of getBase. -/
theorem c3_refstore_stretch_bug_eval :
    (expandRecs refBug.buf refBug.recs 0).getD 5 4 = 2
      ∧ getBase refBug 0 5 = 2
      ∧ getStretch refBug 0 5 1 = [1]
      ∧ getStretch refBug 0 5 1 ≠ [getBase refBug 0 5] := by
  refine ⟨by decide, by decide, by decide, by decide⟩

/-- C9 counterexample.  A .3 file whose sentinel word is 2 - neither 1
nor 0x01000000 - loads successfully (swap is silently enabled); the
load is not fatal and prints no message, refuting the claim that a
wrong sentinel is fatal with a user-facing message. -/
theorem c9_load_counterexample :
    leU32 [2, 0, 0, 0] = 2
      ∧ (2 : Nat) ≠ 1 ∧ (2 : Nat) ≠ 16777216
      ∧ (loadBitPairReference (some [2, 0, 0, 0, 0, 0, 0, 0]) (some [])).isOk
          = true := by
  refine ⟨by decide, by decide, by decide, by decide⟩

/-- C9 amended.  Missing files produce their user-facing message but
mark the reference unloaded rather than exiting; a short read of the .3
sentinel or record count is fatal with a message; a missing .4 never
yields a loaded reference; and a short read of the packed-base buffer
is fatal with a message.  (A sentinel other than 1 is silently treated
as byte-swapped; only a debug assertion checks it is 0x01000000.) -/
theorem c9_load_amended :
    (∀ f4, loadBitPairReference none f4 = .notLoaded .missing3)
      ∧ (∀ b3 f4, b3.length < 4 →
          loadBitPairReference (some b3) f4 = .fatal .shortWord3)
      ∧ (∀ b3 f4, 4 ≤ b3.length → b3.length < 8 →
          loadBitPairReference (some b3) f4 = .fatal .shortCount3)
      ∧ (∀ b3 r, loadBitPairReference (some b3) none ≠ .ok r)
      ∧ (∀ recs b4, b4.length < roundCumsz (scanned recs).2.1 / 4 →
          loadFrom4 recs (some b4) = .fatal .short4) := by
  refine ⟨fun f4 => rfl, fun b3 f4 h => ?_, fun b3 f4 h4 h8 => ?_,
    fun b3 r => ?_, fun recs b4 hlt => ?_⟩
  · show loadFrom3 b3 f4 = _
    unfold loadFrom3
    rw [if_pos h]
  · show loadFrom3 b3 f4 = _
    unfold loadFrom3
    rw [if_neg (by omega)]
    rw [if_pos (by rw [List.length_drop]; omega)]
  · show loadFrom3 b3 none ≠ _
    unfold loadFrom3
    by_cases h1 : b3.length < 4
    · rw [if_pos h1]
      exact fun hcon => LoadResult.noConfusion hcon
    · rw [if_neg h1]
      by_cases h2 : (b3.drop 4).length < 4
      · rw [if_pos h2]
        exact fun hcon => LoadResult.noConfusion hcon
      · rw [if_neg h2]
        split
        · exact fun hcon => LoadResult.noConfusion hcon
        · exact fun hcon => LoadResult.noConfusion hcon
  · exact if_pos hlt

/-- C9 amended witness: the missing-file and short-header cases at
concrete inputs. -/
theorem c9_load_amended_witness :
    loadBitPairReference none (some []) = .notLoaded .missing3
      ∧ loadBitPairReference (some [1, 0]) (some []) = .fatal .shortWord3
      ∧ loadBitPairReference (some [1, 0, 0, 0, 7]) (some [])
          = .fatal .shortCount3 :=
  ⟨c9_load_amended.1 (some []),
    c9_load_amended.2.1 [1, 0] (some []) (by decide),
    c9_load_amended.2.2.1 [1, 0, 0, 0, 7] (some []) (by decide) (by decide)⟩

/-- C1 counterexample.  The backtrack call on cfgA (initial ham 0)
reports one hit whose reported mismatch list is the spliced mutation
position [0]; the sum of the qualities over the reported list is
QUAL(73) = 40, exceeding qualThresh = 0: the spliced mutation positions
are not charged against the quality budget. -/
theorem c1_budget_counterexample :
    hitsOf (runBacktrack cfgA 20 0) = [⟨[0], 1, 30⟩]
      ∧ cfgA.qualThresh = 0
      ∧ ∃ h ∈ hitsOf (runBacktrack cfgA 20 0),
          cfgA.qualThresh < qualSumL cfgA h.mms := by
  refine ⟨by decide, rfl, by decide⟩

/-- C2 counterexample.  The backtrack call on cfgB (half-and-half mode)
reports a hit whose only mismatch lies at depth 1, in [5depth, 3depth)
= [1, 2): the 5-prime half [0, 5depth) holds zero mismatches, not
exactly one.  (The claim requires exactly one mismatch in [0, 5depth)
for every reported hit in half-and-half mode.) -/
theorem c2_region_counterexample :
    cfgB.halfAndHalf = true
      ∧ cfgB.muts = []
      ∧ hitsOf (runBacktrack cfgB 30 0) = [⟨[0], 1, 0⟩]
      ∧ ∃ h ∈ hitsOf (runBacktrack cfgB 30 0),
          countIn (pathDepthsOf cfgB h) 0 cfgB.oneRevOff ≠ 1 := by
  refine ⟨rfl, rfl, by decide, by decide⟩

theorem applyMutations_length (muts : List QueryMutation) (q : List Nat) :
    (applyMutations muts q).length = q.length := by
  induction muts generalizing q with
  | nil => rfl
  | cons m ms ih =>
    rw [applyMutations, List.foldl_cons]
    rw [show List.foldl (fun qq mm => qq.set mm.pos mm.newBase)
      (q.set m.pos m.newBase) ms = applyMutations ms (q.set m.pos m.newBase) from rfl]
    rw [ih, List.length_set]

theorem undoMutations_length (muts : List QueryMutation) (q : List Nat) :
    (undoMutations muts q).length = q.length := by
  induction muts generalizing q with
  | nil => rfl
  | cons m ms ih =>
    rw [undoMutations, List.foldl_cons]
    rw [show List.foldl (fun qq mm => qq.set mm.pos mm.oldBase)
      (q.set m.pos m.oldBase) ms = undoMutations ms (q.set m.pos m.oldBase) from rfl]
    rw [ih, List.length_set]

theorem undoMutations_getElem?_outside (muts : List QueryMutation)
    (q : List Nat) (p : Nat) (h : ∀ m ∈ muts, m.pos ≠ p) :
    (undoMutations muts q)[p]? = q[p]? := by
  induction muts generalizing q with
  | nil => rfl
  | cons m ms ih =>
    rw [undoMutations, List.foldl_cons]
    rw [show List.foldl (fun qq mm => qq.set mm.pos mm.oldBase)
      (q.set m.pos m.oldBase) ms = undoMutations ms (q.set m.pos m.oldBase) from rfl]
    rw [ih _ (fun mm hm => h mm (List.mem_cons_of_mem _ hm))]
    exact List.getElem?_set_ne (h m (List.mem_cons_self _ _))

theorem applyMutations_congr (muts : List QueryMutation) (x y : List Nat)
    (hlen : x.length = y.length)
    (h : ∀ p, (∀ m ∈ muts, m.pos ≠ p) → x[p]? = y[p]?) :
    applyMutations muts x = applyMutations muts y := by
  induction muts generalizing x y with
  | nil =>
    apply List.ext_getElem?
    intro p
    exact h p (fun m hm => absurd hm (List.not_mem_nil m))
  | cons m ms ih =>
    show applyMutations ms (x.set m.pos m.newBase)
      = applyMutations ms (y.set m.pos m.newBase)
    apply ih
    · rw [List.length_set, List.length_set, hlen]
    · intro p hp
      by_cases hmp : m.pos = p
      · subst hmp
        by_cases hin : m.pos < x.length
        · rw [List.getElem?_set_eq_of_lt _ hin,
            List.getElem?_set_eq_of_lt _ (hlen ▸ hin)]
        · rw [List.getElem?_eq_none (by rw [List.length_set]; omega),
            List.getElem?_eq_none (by rw [List.length_set]; omega)]
      · rw [List.getElem?_set_ne hmp, List.getElem?_set_ne hmp]
        exact h p (fun mm hm => by
          rcases List.mem_cons.mp hm with hm1 | hm2
          · rw [hm1]; exact hmp
          · exact hp mm hm2)

/-- apply after undo is the identity on a read the mutation set is
already applied to. -/
theorem apply_undo_of_applied (muts : List QueryMutation) (q : List Nat)
    (h : applyMutations muts q = q) :
    applyMutations muts (undoMutations muts q) = q := by
  have step : applyMutations muts (undoMutations muts q) = applyMutations muts q := by
    apply applyMutations_congr
    · rw [undoMutations_length]
    · intro p hp
      exact undoMutations_getElem?_outside muts q p hp
  rw [step, h]

theorem untouched_refl (st : BtState) : Untouched st st := ⟨rfl, rfl, rfl, rfl⟩

theorem untouched_trans {s1 s2 s3 : BtState} (h1 : Untouched s1 s2)
    (h2 : Untouched s2 s3) : Untouched s1 s3 :=
  ⟨h2.1.trans h1.1, h2.2.1.trans h1.2.1, h2.2.2.1.trans h1.2.2.1,
    h2.2.2.2.trans h1.2.2.2⟩

theorem accExt_refl (cfg : BtConfig) (k pB eB : Nat) (st : BtState) :
    AccExt cfg k pB eB st st :=
  ⟨[], rfl, fun a ha => absurd ha (List.not_mem_nil a)⟩

theorem accExt_trans {cfg : BtConfig} {k pB eB : Nat} {s1 s2 s3 : BtState}
    (h1 : AccExt cfg k pB eB s1 s2) (h2 : AccExt cfg k pB eB s2 s3) :
    AccExt cfg k pB eB s1 s3 := by
  obtain ⟨p1, he1, ha1⟩ := h1
  obtain ⟨p2, he2, ha2⟩ := h2
  refine ⟨p2 ++ p1, by rw [he2, he1, List.append_assoc], fun a ha => ?_⟩
  rcases List.mem_append.mp ha with h | h
  · exact ha2 a h
  · exact ha1 a h

theorem AccExt.rdPairs {cfg : BtConfig} {k pB eB : Nat} (st : BtState)
    (off : Nat) (hoff : off < cfg.qlen * 8) :
    AccExt cfg k pB eB st (rdPairs k st (pB + off)).2 :=
  ⟨[⟨false, pB + off, k⟩], rfl, fun a ha => by
    rw [List.mem_singleton] at ha
    subst ha
    exact ⟨rfl, Or.inr ⟨rfl, off, hoff, rfl⟩⟩⟩

theorem AccExt.wrPairs {cfg : BtConfig} {k pB eB : Nat} (st : BtState)
    (off v : Nat) (hoff : off < cfg.qlen * 8) :
    AccExt cfg k pB eB st (wrPairs k st (pB + off) v) :=
  ⟨[⟨false, pB + off, k⟩], rfl, fun a ha => by
    rw [List.mem_singleton] at ha
    subst ha
    exact ⟨rfl, Or.inr ⟨rfl, off, hoff, rfl⟩⟩⟩

theorem AccExt.rdElims {cfg : BtConfig} {k pB eB : Nat} (st : BtState)
    (dd : Nat) (hdd : dd < cfg.qlen) :
    AccExt cfg k pB eB st (rdElims k st (eB + dd)).2 :=
  ⟨[⟨true, eB + dd, k⟩], rfl, fun a ha => by
    rw [List.mem_singleton] at ha
    subst ha
    exact ⟨rfl, Or.inl ⟨rfl, dd, hdd, rfl⟩⟩⟩

theorem AccExt.wrElims {cfg : BtConfig} {k pB eB : Nat} (st : BtState)
    (dd v : Nat) (hdd : dd < cfg.qlen) :
    AccExt cfg k pB eB st (wrElims k st (eB + dd) v) :=
  ⟨[⟨true, eB + dd, k⟩], rfl, fun a ha => by
    rw [List.mem_singleton] at ha
    subst ha
    exact ⟨rfl, Or.inl ⟨rfl, dd, hdd, rfl⟩⟩⟩

theorem untouched_rdPairs (k : Nat) (st : BtState) (i : Nat) :
    Untouched st (rdPairs k st i).2 := ⟨rfl, rfl, rfl, rfl⟩

theorem untouched_wrPairs (k : Nat) (st : BtState) (i v : Nat) :
    Untouched st (wrPairs k st i v) := ⟨rfl, rfl, rfl, rfl⟩

theorem untouched_rdElims (k : Nat) (st : BtState) (i : Nat) :
    Untouched st (rdElims k st i).2 := ⟨rfl, rfl, rfl, rfl⟩

theorem untouched_wrElims (k : Nat) (st : BtState) (i v : Nat) :
    Untouched st (wrElims k st i v) := ⟨rfl, rfl, rfl, rfl⟩

theorem wrPairsList_spec (cfg : BtConfig) (k pB eB : Nat) :
    ∀ l st, (∀ iv ∈ l, ∃ off, off < cfg.qlen * 8 ∧ iv.1 = pB + off) →
      Untouched st (wrPairsList k l st)
        ∧ AccExt cfg k pB eB st (wrPairsList k l st) := by
  intro l
  induction l with
  | nil =>
    intro st _
    exact ⟨untouched_refl st, accExt_refl cfg k pB eB st⟩
  | cons iv rest ih =>
    intro st hl
    obtain ⟨off, hoff, hidx⟩ := hl iv (List.mem_cons_self _ _)
    have h1 : Untouched st (wrPairs k st iv.1 iv.2) := ⟨rfl, rfl, rfl, rfl⟩
    have h2 : AccExt cfg k pB eB st (wrPairs k st iv.1 iv.2) := by
      refine ⟨[⟨false, iv.1, k⟩], rfl, fun a ha => ?_⟩
      rw [List.mem_singleton] at ha
      subst ha
      exact ⟨rfl, Or.inr ⟨rfl, off, hoff, hidx⟩⟩
    obtain ⟨ih1, ih2⟩ := ih (wrPairs k st iv.1 iv.2)
      (fun x hx => hl x (List.mem_cons_of_mem _ hx))
    exact ⟨untouched_trans h1 ih1, accExt_trans h2 ih2⟩

theorem fchrInit_spec (cfg : BtConfig) (k pB eB : Nat) (st : BtState)
    (hq : 1 ≤ cfg.qlen) :
    Untouched st (fchrInit cfg k pB st)
      ∧ AccExt cfg k pB eB st (fchrInit cfg k pB st) := by
  apply wrPairsList_spec
  intro iv hiv
  simp only [List.mem_cons, List.not_mem_nil, or_false] at hiv
  rcases hiv with h | h | h | h | h | h | h | h <;> subst h
  · exact ⟨0, by omega, rfl⟩
  · exact ⟨4, by omega, rfl⟩
  · exact ⟨1, by omega, rfl⟩
  · exact ⟨5, by omega, rfl⟩
  · exact ⟨2, by omega, rfl⟩
  · exact ⟨6, by omega, rfl⟩
  · exact ⟨3, by omega, rfl⟩
  · exact ⟨7, by omega, rfl⟩

theorem lfExWrite_spec (cfg : BtConfig) (k pB eB d top bot : Nat)
    (st : BtState) (hd : d < cfg.qlen) :
    Untouched st (lfExWrite cfg k pB d top bot st)
      ∧ AccExt cfg k pB eB st (lfExWrite cfg k pB d top bot st) := by
  apply wrPairsList_spec
  intro iv hiv
  simp only [List.mem_cons, List.not_mem_nil, or_false] at hiv
  rcases hiv with h | h | h | h | h | h | h | h <;> subst h
  · exact ⟨d * 8 + 0, by omega, rfl⟩
  · exact ⟨d * 8 + 1, by omega, rfl⟩
  · exact ⟨d * 8 + 2, by omega, rfl⟩
  · exact ⟨d * 8 + 3, by omega, rfl⟩
  · exact ⟨d * 8 + 4, by omega, rfl⟩
  · exact ⟨d * 8 + 5, by omega, rfl⟩
  · exact ⟨d * 8 + 6, by omega, rfl⟩
  · exact ⟨d * 8 + 7, by omega, rfl⟩

theorem elimFold_spec (cfg : BtConfig) (k pB eB d c q : Nat) (curElig : Bool)
    (hd : d < cfg.qlen) (ham : Nat)
    (hq : curElig = true → ham + q ≤ cfg.qualThresh) :
    ∀ js, (∀ j ∈ js, j < 4) →
      ∀ alt en es lowq over st,
        Untouched st
            (elimFold k pB eB d c q curElig js alt en es lowq over st).2.2.2.2
          ∧ AccExt cfg k pB eB st
              (elimFold k pB eB d c q curElig js alt en es lowq over st).2.2.2.2
          ∧ (LowInv cfg ham lowq →
              LowInv cfg ham
                (elimFold k pB eB d c q curElig js alt en es lowq over st).2.2.2.1) := by
  intro js
  induction js with
  | nil =>
    intro _ alt en es lowq over st
    exact ⟨untouched_refl st, accExt_refl cfg k pB eB st, fun h => h⟩
  | cons j js ih =>
    intro hjs alt en es lowq over st
    have hj : j < 4 := hjs j (List.mem_cons_self _ _)
    have hjs2 : ∀ x ∈ js, x < 4 := fun x hx => hjs x (List.mem_cons_of_mem _ hx)
    rw [elimFold]
    dsimp only [rdPairs, rdElims, wrElims]
    by_cases hsp : st.pairs (pB + d * 8 + j + 4) - st.pairs (pB + d * 8 + j) = 0
    · simp only [hsp, if_pos]
      refine ⟨untouched_trans ⟨rfl, rfl, rfl, rfl⟩ (ih hjs2 _ _ _ _ _ _).1,
        accExt_trans ⟨[⟨true, eB + d, k⟩, ⟨true, eB + d, k⟩, ⟨true, eB + d, k⟩,
            ⟨false, pB + d * 8 + j + 4, k⟩, ⟨false, pB + d * 8 + j, k⟩], rfl, ?_⟩
          (ih hjs2 _ _ _ _ _ _).2.1,
        fun hli => (ih hjs2 _ _ _ _ _ _).2.2 ?_⟩
      · intro a ha
        simp only [List.mem_cons, List.not_mem_nil, or_false] at ha
        rcases ha with h | h | h | h | h <;> subst h
        · exact ⟨rfl, Or.inl ⟨rfl, d, hd, rfl⟩⟩
        · exact ⟨rfl, Or.inl ⟨rfl, d, hd, rfl⟩⟩
        · exact ⟨rfl, Or.inl ⟨rfl, d, hd, rfl⟩⟩
        · exact ⟨rfl, Or.inr ⟨rfl, d * 8 + j + 4, by omega, by dsimp only; omega⟩⟩
        · exact ⟨rfl, Or.inr ⟨rfl, d * 8 + j, by omega, by dsimp only; omega⟩⟩
      · split
        · rename_i hcond
          simp only [Bool.and_eq_true] at hcond
          exact Or.inr (hq hcond.1.2)
        · exact hli
    · simp only [hsp, if_neg, ite_false]
      refine ⟨untouched_trans ⟨rfl, rfl, rfl, rfl⟩ (ih hjs2 _ _ _ _ _ _).1,
        accExt_trans ⟨[⟨true, eB + d, k⟩, ⟨false, pB + d * 8 + j + 4, k⟩,
            ⟨false, pB + d * 8 + j, k⟩], rfl, ?_⟩
          (ih hjs2 _ _ _ _ _ _).2.1,
        fun hli => (ih hjs2 _ _ _ _ _ _).2.2 ?_⟩
      · intro a ha
        simp only [List.mem_cons, List.not_mem_nil, or_false] at ha
        rcases ha with h | h | h <;> subst h
        · exact ⟨rfl, Or.inl ⟨rfl, d, hd, rfl⟩⟩
        · exact ⟨rfl, Or.inr ⟨rfl, d * 8 + j + 4, by omega, by dsimp only; omega⟩⟩
        · exact ⟨rfl, Or.inr ⟨rfl, d * 8 + j, by omega, by dsimp only; omega⟩⟩
      · split
        · rename_i hcond
          simp only [Bool.and_eq_true] at hcond
          exact Or.inr (hq hcond.1.2)
        · exact hli

theorem chooseJGo_spec (cfg : BtConfig) (k pB eB i e r qi : Nat)
    (hi : i < cfg.qlen) :
    ∀ js, (∀ j ∈ js, j < 4) → ∀ cum st,
      Untouched st (chooseJGo k pB i e r qi js cum st).2.2
        ∧ AccExt cfg k pB eB st (chooseJGo k pB i e r qi js cum st).2.2
        ∧ (∀ t, (chooseJGo k pB i e r qi js cum st).1 = some t →
            t.ti = i ∧ t.qi = qi) := by
  intro js
  induction js with
  | nil =>
    intro _ cum st
    exact ⟨untouched_refl st, accExt_refl cfg k pB eB st,
      fun t ht => Option.noConfusion ht⟩
  | cons j js ih =>
    intro hjs cum st
    have hj : j < 4 := hjs j (List.mem_cons_self _ _)
    have hjs2 : ∀ x ∈ js, x < 4 := fun x hx => hjs x (List.mem_cons_of_mem _ hx)
    rw [chooseJGo]
    dsimp only [rdPairs]
    by_cases hb : e &&& (1 <<< j) = 0
    · simp only [hb, if_pos]
      by_cases hr : r < cum + (st.pairs (pB + i * 8 + j + 4) - st.pairs (pB + i * 8 + j))
      · simp only [hr, if_pos]
        refine ⟨⟨rfl, rfl, rfl, rfl⟩,
          ⟨[⟨false, pB + i * 8 + j + 4, k⟩, ⟨false, pB + i * 8 + j, k⟩], rfl, ?_⟩,
          fun t ht => ?_⟩
        · intro a ha
          simp only [List.mem_cons, List.not_mem_nil, or_false] at ha
          rcases ha with h | h <;> subst h
          · exact ⟨rfl, Or.inr ⟨rfl, i * 8 + j + 4, by omega, by dsimp only; omega⟩⟩
          · exact ⟨rfl, Or.inr ⟨rfl, i * 8 + j, by omega, by dsimp only; omega⟩⟩
        · cases ht
          exact ⟨rfl, rfl⟩
      · simp only [hr, if_neg, ite_false]
        refine ⟨untouched_trans ⟨rfl, rfl, rfl, rfl⟩ (ih hjs2 _ _).1,
          accExt_trans ⟨[⟨false, pB + i * 8 + j + 4, k⟩, ⟨false, pB + i * 8 + j, k⟩],
            rfl, ?_⟩ (ih hjs2 _ _).2.1,
          (ih hjs2 _ _).2.2⟩
        intro a ha
        simp only [List.mem_cons, List.not_mem_nil, or_false] at ha
        rcases ha with h | h <;> subst h
        · exact ⟨rfl, Or.inr ⟨rfl, i * 8 + j + 4, by omega, by dsimp only; omega⟩⟩
        · exact ⟨rfl, Or.inr ⟨rfl, i * 8 + j, by omega, by dsimp only; omega⟩⟩
    · simp only [hb, if_neg, ite_false]
      exact ih hjs2 cum st

theorem chooseTargetGo_spec (cfg : BtConfig) (k pB eB unrev lowq r : Nat) :
    ∀ n i cum st, i + n ≤ cfg.qlen →
      Untouched st (chooseTargetGo cfg k pB eB unrev lowq r i n cum st).2
        ∧ AccExt cfg k pB eB st
            (chooseTargetGo cfg k pB eB unrev lowq r i n cum st).2
        ∧ (∀ t, (chooseTargetGo cfg k pB eB unrev lowq r i n cum st).1 = some t →
            unrev ≤ t.ti ∧ i ≤ t.ti ∧ t.ti < i + n ∧ t.qi = lowq
              ∧ t.qi = QUAL (cfg.qual.getD (cfg.qlen - t.ti - 1) 0)) := by
  intro n
  induction n with
  | zero =>
    intro i cum st _
    exact ⟨untouched_refl st, accExt_refl cfg k pB eB st,
      fun t ht => Option.noConfusion ht⟩
  | succ n ih =>
    intro i cum st hin
    have hi : i < cfg.qlen := by omega
    rw [chooseTargetGo]
    by_cases hu : i < unrev
    · simp only [hu, if_pos]
      obtain ⟨h1, h2, h3⟩ := ih (i + 1) cum st (by omega)
      exact ⟨h1, h2, fun t ht => by
        obtain ⟨g1, g2, g3, g4, g5⟩ := h3 t ht
        exact ⟨g1, by omega, by omega, g4, g5⟩⟩
    · simp only [hu, if_neg, ite_false]
      dsimp only [rdElims]
      by_cases hq : QUAL (cfg.qual.getD (cfg.qlen - i - 1) 0) = lowq
          ∧ st.elims (eB + i) ≠ 15
      · rw [if_pos hq]
        have hstep : Untouched st ({ st with acc := ⟨true, eB + i, k⟩ :: st.acc })
            ∧ AccExt cfg k pB eB st ({ st with acc := ⟨true, eB + i, k⟩ :: st.acc }) := by
          refine ⟨⟨rfl, rfl, rfl, rfl⟩, ⟨[⟨true, eB + i, k⟩], rfl, ?_⟩⟩
          intro a ha
          rw [List.mem_singleton] at ha
          subst ha
          exact ⟨rfl, Or.inl ⟨rfl, i, hi, rfl⟩⟩
        have hcj := chooseJGo_spec cfg k pB eB i (st.elims (eB + i)) r
          (QUAL (cfg.qual.getD (cfg.qlen - i - 1) 0)) hi [0, 1, 2, 3]
          (by intro x hx; fin_cases hx <;> omega) cum
          ({ st with acc := ⟨true, eB + i, k⟩ :: st.acc })
        split
        · rename_i t cum2 st2 heq
          rw [heq] at hcj
          refine ⟨untouched_trans hstep.1 hcj.1, accExt_trans hstep.2 hcj.2.1,
            fun t2 ht2 => ?_⟩
          cases ht2
          obtain ⟨g1, g2⟩ := hcj.2.2 t rfl
          refine ⟨by omega, by omega, by omega, ?_, ?_⟩
          · rw [g2, hq.1]
          · rw [g2, g1]
        · rename_i cum2 st2 heq
          rw [heq] at hcj
          obtain ⟨h1, h2, h3⟩ := ih (i + 1) cum2 st2 (by omega)
          refine ⟨untouched_trans (untouched_trans hstep.1 hcj.1) h1,
            accExt_trans (accExt_trans hstep.2 hcj.2.1) h2,
            fun t ht => ?_⟩
          obtain ⟨g1, g2, g3, g4, g5⟩ := h3 t ht
          exact ⟨g1, by omega, by omega, g4, g5⟩
      · rw [if_neg hq]
        have hstep : Untouched st ({ st with acc := ⟨true, eB + i, k⟩ :: st.acc })
            ∧ AccExt cfg k pB eB st ({ st with acc := ⟨true, eB + i, k⟩ :: st.acc }) := by
          refine ⟨⟨rfl, rfl, rfl, rfl⟩, ⟨[⟨true, eB + i, k⟩], rfl, ?_⟩⟩
          intro a ha
          rw [List.mem_singleton] at ha
          subst ha
          exact ⟨rfl, Or.inl ⟨rfl, i, hi, rfl⟩⟩
        obtain ⟨h1, h2, h3⟩ := ih (i + 1) cum
          ({ st with acc := ⟨true, eB + i, k⟩ :: st.acc }) (by omega)
        refine ⟨untouched_trans hstep.1 h1, accExt_trans hstep.2 h2,
          fun t ht => ?_⟩
        obtain ⟨g1, g2, g3, g4, g5⟩ := h3 t ht
        exact ⟨g1, by omega, by omega, g4, g5⟩

theorem rescanL_spec (cfg : BtConfig) (k pB eB kk kq : Nat)
    (hkk : kk < cfg.qlen) (ham : Nat) (hkq : ham + kq ≤ cfg.qualThresh) :
    ∀ ls, (∀ l ∈ ls, l < 4) → ∀ lowq en es over st,
      Untouched st (rescanL k pB eB kk kq ls lowq en es over st).2.2.2.2
        ∧ AccExt cfg k pB eB st (rescanL k pB eB kk kq ls lowq en es over st).2.2.2.2
        ∧ (LowInv cfg ham lowq →
            LowInv cfg ham (rescanL k pB eB kk kq ls lowq en es over st).1) := by
  intro ls
  induction ls with
  | nil =>
    intro _ lowq en es over st
    exact ⟨untouched_refl st, accExt_refl cfg k pB eB st, fun h => h⟩
  | cons l ls ih =>
    intro hls lowq en es over st
    have hl : l < 4 := hls l (List.mem_cons_self _ _)
    have hls2 : ∀ x ∈ ls, x < 4 := fun x hx => hls x (List.mem_cons_of_mem _ hx)
    rw [rescanL]
    dsimp only [rdPairs, rdElims]
    by_cases hb : st.elims (eB + kk) &&& (1 <<< l) = 0
    · rw [decide_eq_true hb]
      simp only [Bool.true_and, if_true]
      refine ⟨untouched_trans ⟨rfl, rfl, rfl, rfl⟩ (ih hls2 _ _ _ _ _).1,
        accExt_trans ⟨[⟨false, pB + kk * 8 + l + 4, k⟩, ⟨false, pB + kk * 8 + l, k⟩,
            ⟨true, eB + kk, k⟩], rfl, ?_⟩ (ih hls2 _ _ _ _ _).2.1,
        fun hli => (ih hls2 _ _ _ _ _).2.2 ?_⟩
      · intro a ha
        simp only [List.mem_cons, List.not_mem_nil, or_false] at ha
        rcases ha with h | h | h <;> subst h
        · exact ⟨rfl, Or.inr ⟨rfl, kk * 8 + l + 4, by omega, by dsimp only; omega⟩⟩
        · exact ⟨rfl, Or.inr ⟨rfl, kk * 8 + l, by omega, by dsimp only; omega⟩⟩
        · exact ⟨rfl, Or.inl ⟨rfl, kk, hkk, rfl⟩⟩
      · split
        · exact Or.inr hkq
        · exact hli
    · rw [decide_eq_false hb]
      simp only [Bool.false_and, if_false]
      refine ⟨untouched_trans ⟨rfl, rfl, rfl, rfl⟩ (ih hls2 _ _ _ _ _).1,
        accExt_trans ⟨[⟨true, eB + kk, k⟩], rfl, ?_⟩ (ih hls2 _ _ _ _ _).2.1,
        fun hli => (ih hls2 _ _ _ _ _).2.2 ?_⟩
      · intro a ha
        rw [List.mem_singleton] at ha
        subst ha
        exact ⟨rfl, Or.inl ⟨rfl, kk, hkk, rfl⟩⟩
      · split
        · exact Or.inr hkq
        · exact hli

theorem rescanGo_spec (cfg : BtConfig) (k pB eB unrev ham : Nat) :
    ∀ ks, (∀ x ∈ ks, x < cfg.qlen) → ∀ lowq en es st,
      Untouched st (rescanGo cfg k pB eB unrev ham ks lowq en es st).2.2.2
        ∧ AccExt cfg k pB eB st (rescanGo cfg k pB eB unrev ham ks lowq en es st).2.2.2
        ∧ (LowInv cfg ham lowq →
            LowInv cfg ham (rescanGo cfg k pB eB unrev ham ks lowq en es st).1) := by
  intro ks
  induction ks with
  | nil =>
    intro _ lowq en es st
    exact ⟨untouched_refl st, accExt_refl cfg k pB eB st, fun h => h⟩
  | cons kk ks ih =>
    intro hks lowq en es st
    have hkk : kk < cfg.qlen := hks kk (List.mem_cons_self _ _)
    have hks2 : ∀ x ∈ ks, x < cfg.qlen := fun x hx => hks x (List.mem_cons_of_mem _ hx)
    rw [rescanGo]
    by_cases halt : isAlternative unrev kk ham cfg.qualThresh
        (cfg.qual.getD (cfg.qlen - kk - 1) 0) = true
    · rw [if_pos halt]
      have hbud : ham + QUAL (cfg.qual.getD (cfg.qlen - kk - 1) 0) ≤ cfg.qualThresh := by
        have h2 := halt
        unfold isAlternative at h2
        simp only [Bool.and_eq_true, decide_eq_true_eq] at h2
        exact h2.2
      by_cases hle : QUAL (cfg.qual.getD (cfg.qlen - kk - 1) 0) ≤ lowq
      · rw [if_pos hle]
        have hrl := rescanL_spec cfg k pB eB kk
          (QUAL (cfg.qual.getD (cfg.qlen - kk - 1) 0)) hkk ham hbud [0, 1, 2, 3]
          (by intro x hx; fin_cases hx <;> omega) lowq en es
          (decide (QUAL (cfg.qual.getD (cfg.qlen - kk - 1) 0) < lowq)) st
        obtain ⟨h1, h2, h3⟩ := ih hks2 _ _ _ _
        exact ⟨untouched_trans hrl.1 h1, accExt_trans hrl.2.1 h2,
          fun hli => h3 (hrl.2.2 hli)⟩
      · rw [if_neg hle]
        exact ih hks2 lowq en es st
    · rw [if_neg (by simpa using halt)]
      exact ih hks2 lowq en es st

theorem chase_spec (cfg : BtConfig) (h : Hit) (bot spread : Nat) :
    ∀ n ri st,
      (chase cfg h bot spread n ri st).2.qry = st.qry
        ∧ (chase cfg h bot spread n ri st).2.mms = st.mms
        ∧ (chase cfg h bot spread n ri st).2.acc = st.acc
        ∧ (chase cfg h bot spread n ri st).2.frames = st.frames
        ∧ ((chase cfg h bot spread n ri st).1 = true →
            ∃ row, (chase cfg h bot spread n ri st).2.hits
              = ⟨h.mms, h.k, row⟩ :: st.hits)
        ∧ ((chase cfg h bot spread n ri st).1 = false →
            (chase cfg h bot spread n ri st).2.hits = st.hits) := by
  intro n
  induction n with
  | zero =>
    intro ri st
    exact ⟨rfl, rfl, rfl, rfl, fun hcon => Bool.noConfusion hcon, fun _ => rfl⟩
  | succ n ih =>
    intro ri st
    rw [chase]
    by_cases hacc : cfg.accept (if bot ≤ ri then ri - spread else ri) = true
    · rw [if_pos hacc]
      exact ⟨rfl, rfl, rfl, rfl,
        fun _ => ⟨if bot ≤ ri then ri - spread else ri, rfl⟩,
        fun hcon => Bool.noConfusion hcon⟩
    · rw [if_neg hacc]
      exact ih (ri + 1) st

theorem reportHitM_spec (cfg : BtConfig) (sd top bot : Nat) (st : BtState)
    (b : Bool) (st2 : BtState) :
    reportHitM cfg sd top bot st = some (b, st2) →
      st2.qry = st.qry ∧ st2.mms = st.mms ∧ st2.acc = st.acc
        ∧ st2.frames = st.frames
        ∧ (b = true → ∃ row,
            st2.hits = ⟨(List.range sd).map st.mms, sd, row⟩ :: st.hits)
        ∧ (b = false → st2.hits = st.hits) := by
  intro hrep
  unfold reportHitM at hrep
  by_cases hsp : bot - top = 0
  · rw [if_pos hsp] at hrep
    exact Option.noConfusion hrep
  · rw [if_neg hsp] at hrep
    dsimp only [nextU32] at hrep
    injection hrep with hrep2
    have hc := chase_spec cfg
      ⟨(List.range sd).map ({ st with randCnt := st.randCnt + 1 } : BtState).mms,
        sd, 0⟩ bot (bot - top) (bot - top)
      (top + cfg.rand st.randCnt % (bot - top))
      ({ st with randCnt := st.randCnt + 1 })
    rw [hrep2] at hc
    dsimp only at hc
    exact hc

theorem spliceMms_lt (sd : Nat) (muts : List QueryMutation) (mms : Nat → Nat)
    (j : Nat) (hj : j < sd) : spliceMms sd muts mms j = mms j := by
  unfold spliceMms
  rw [if_neg]
  intro hcon
  omega

theorem map_range_take_add (f : Nat → Nat) (a m : Nat) :
    ((List.range (a + m)).map f).take a = (List.range a).map f := by
  rw [← List.map_take, List.take_range, Nat.min_eq_left (by omega)]

theorem take_map_range_self (f : Nat → Nat) (n : Nat) :
    ((List.range n).map f).take n = (List.range n).map f := by
  rw [← List.map_take, List.take_range, Nat.min_self]

theorem map_range_congr (f g : Nat → Nat) (n : Nat) (h : ∀ j < n, f j = g j) :
    (List.range n).map f = (List.range n).map g := by
  apply List.map_congr_left
  intro a ha
  exact h a (List.mem_range.mp ha)

theorem pathD_as_map (cfg : BtConfig) (st : BtState) (sd : Nat) :
    ((List.range sd).map st.mms).map (fun p => cfg.qlen - 1 - p)
      = pathD cfg st sd := by
  rw [List.map_map]
  rfl

theorem reportM_spec (cfg : BtConfig) (iham0 sd top bot : Nat) (st : BtState)
    (r : Bool) (st2 : BtState)
    (hq : QryApplied cfg st)
    (hham : iham0 + pathSum cfg st sd ≤ cfg.qualThresh)
    (hpf : PathFacts cfg st sd) :
    reportM cfg sd top bot st = some (r, st2) →
      st2.qry = st.qry
        ∧ (∀ j, j < sd → st2.mms j = st.mms j)
        ∧ st2.acc = st.acc ∧ st2.frames = st.frames
        ∧ (r = true → ∃ h, st2.hits = h :: st.hits ∧ GoodHit cfg iham0 h)
        ∧ (r = false → st2.hits = st.hits) := by
  intro hrep
  unfold reportM at hrep
  by_cases hseed : cfg.reportSeedlings ≠ 0
  · rw [if_pos hseed] at hrep
    injection hrep with hrep2
    have hr : r = false := (congrArg Prod.fst hrep2).symm
    have hst : st2 = reportSeedlingM cfg sd st := (congrArg Prod.snd hrep2).symm
    subst hst
    refine ⟨rfl, fun j _ => rfl, rfl, rfl, fun htr => ?_, fun _ => rfl⟩
    rw [hr] at htr
    exact Bool.noConfusion htr
  · rw [if_neg hseed] at hrep
    dsimp only at hrep
    by_cases hm : cfg.muts.length ≠ 0
    · rw [if_pos hm, if_pos hm] at hrep
      split at hrep
      · exact Option.noConfusion hrep
      · rename_i b st3 heq
        injection hrep with hrep2
        have hr : b = r := congrArg Prod.fst hrep2
        have hst : st2 = { st3 with qry := applyMutations cfg.muts st3.qry } :=
          (congrArg Prod.snd hrep2).symm
        subst hst
        subst hr
        obtain ⟨g1, g2, g3, g4, g5, g6⟩ := reportHitM_spec cfg
          (sd + cfg.muts.length) top bot _ b st3 heq
        dsimp only at g1 g2 g3 g4 g5 g6
        refine ⟨?_, ?_, g3, g4, ?_, g6⟩
        · show applyMutations cfg.muts st3.qry = st.qry
          rw [g1]
          exact apply_undo_of_applied cfg.muts st.qry hq
        · intro j hj
          show st3.mms j = st.mms j
          rw [g2]
          exact spliceMms_lt sd cfg.muts st.mms j hj
        · intro hb
          obtain ⟨row, hrow⟩ := g5 hb
          refine ⟨⟨(List.range (sd + cfg.muts.length)).map
              (spliceMms sd cfg.muts st.mms), sd + cfg.muts.length, row⟩,
            hrow, ?_, ?_, ?_, ?_, ?_⟩
          · dsimp only
            omega
          · dsimp only
            rw [Nat.add_sub_cancel, map_range_take_add,
              map_range_congr _ st.mms sd (spliceMms_lt sd cfg.muts st.mms)]
            exact hham
          · intro x hx
            refine hpf.1 x ?_
            unfold pathDepthsOf at hx
            dsimp only at hx
            rw [Nat.add_sub_cancel, map_range_take_add,
              map_range_congr _ st.mms sd (spliceMms_lt sd cfg.muts st.mms),
              pathD_as_map] at hx
            exact hx
          · unfold pathDepthsOf
            dsimp only
            rw [Nat.add_sub_cancel, map_range_take_add,
              map_range_congr _ st.mms sd (spliceMms_lt sd cfg.muts st.mms),
              pathD_as_map]
            exact hpf.2.1
          · intro hhalf
            unfold pathDepthsOf
            dsimp only
            rw [Nat.add_sub_cancel, map_range_take_add,
              map_range_congr _ st.mms sd (spliceMms_lt sd cfg.muts st.mms),
              pathD_as_map]
            exact hpf.2.2 hhalf
    · have hm0 : cfg.muts.length = 0 := not_ne_iff.mp hm
      simp only [hm0, ne_eq, not_true_eq_false, if_false, ite_false] at hrep
      split at hrep
      · exact Option.noConfusion hrep
      · rename_i b st3 heq
        injection hrep with hrep2
        have hr : b = r := congrArg Prod.fst hrep2
        have hst : st2 = { st3 with qry := applyMutations cfg.muts st3.qry } :=
          (congrArg Prod.snd hrep2).symm
        subst hst
        subst hr
        obtain ⟨g1, g2, g3, g4, g5, g6⟩ := reportHitM_spec cfg sd top bot _ b st3 heq
        dsimp only at g1 g2 g3 g4 g5 g6
        refine ⟨?_, ?_, g3, g4, ?_, g6⟩
        · show applyMutations cfg.muts st3.qry = st.qry
          rw [g1]
          exact apply_undo_of_applied cfg.muts st.qry hq
        · intro j hj
          show st3.mms j = st.mms j
          rw [g2]
        · intro hb
          obtain ⟨row, hrow⟩ := g5 hb
          refine ⟨⟨(List.range sd).map st.mms, sd, row⟩, hrow, ?_, ?_, ?_, ?_, ?_⟩
          · dsimp only
            omega
          · dsimp only
            rw [hm0, Nat.sub_zero, take_map_range_self]
            exact hham
          · intro x hx
            refine hpf.1 x ?_
            unfold pathDepthsOf at hx
            dsimp only at hx
            rw [hm0, Nat.sub_zero, take_map_range_self, pathD_as_map] at hx
            exact hx
          · unfold pathDepthsOf
            dsimp only
            rw [hm0, Nat.sub_zero, take_map_range_self, pathD_as_map]
            exact hpf.2.1
          · intro hhalf
            unfold pathDepthsOf
            dsimp only
            rw [hm0, Nat.sub_zero, take_map_range_self, pathD_as_map]
            exact hpf.2.2 hhalf

theorem accPE_slice (cfg : BtConfig) (k : Nat) (a : Acc)
    (hp : AccPE cfg k (k * cfg.qlen * 8) (k * cfg.qlen) a) : AccSlice cfg a := by
  obtain ⟨hk, hrest⟩ := hp
  unfold AccSlice
  rcases hrest with ⟨he, dd, hdd, hidx⟩ | ⟨he, off, hoff, hidx⟩
  · rw [he, if_pos rfl, hidx, hk]
    constructor
    · omega
    · have : (k + 1) * cfg.qlen = k * cfg.qlen + cfg.qlen := by ring
      omega
  · rw [he]
    rw [if_neg (by simp)]
    rw [hidx, hk]
    constructor
    · omega
    · have : (k + 1) * (cfg.qlen * 8) = k * cfg.qlen * 8 + cfg.qlen * 8 := by ring
      omega

theorem contPost_refl (cfg : BtConfig) (k0 : Nat) (st : BtState) :
    ContPost cfg k0 st st :=
  ⟨rfl, fun _ _ => rfl, rfl,
    ⟨[], rfl, fun a ha => absurd ha (List.not_mem_nil a)⟩,
    ⟨[], rfl, fun a ha => absurd ha (List.not_mem_nil a)⟩⟩

theorem contPost_of_untouched (cfg : BtConfig) (k0 : Nat) {s1 s2 : BtState}
    (hu : Untouched s1 s2)
    (ha : AccExt cfg k0 (k0 * cfg.qlen * 8) (k0 * cfg.qlen) s1 s2) :
    ContPost cfg k0 s1 s2 := by
  obtain ⟨pre, hpre, hall⟩ := ha
  exact ⟨hu.1, fun j _ => by rw [hu.2.1], hu.2.2.1,
    ⟨pre, hpre, fun a haa => accPE_slice cfg k0 a (hall a haa)⟩,
    ⟨[], by rw [hu.2.2.2]; rfl, fun a ha2 => absurd ha2 (List.not_mem_nil a)⟩⟩

theorem contPost_trans (cfg : BtConfig) (k0 : Nat) {s1 s2 s3 : BtState}
    (h1 : ContPost cfg k0 s1 s2) (h2 : ContPost cfg k0 s2 s3) :
    ContPost cfg k0 s1 s3 := by
  obtain ⟨q1, m1, h1h, ⟨a1, ha1, hall1⟩, ⟨f1, hf1, hfall1⟩⟩ := h1
  obtain ⟨q2, m2, h2h, ⟨a2, ha2, hall2⟩, ⟨f2, hf2, hfall2⟩⟩ := h2
  refine ⟨q2.trans q1, fun j hj => (m2 j hj).trans (m1 j hj), h2h.trans h1h,
    ⟨a2 ++ a1, ?_, ?_⟩, ⟨f2 ++ f1, ?_, ?_⟩⟩
  · rw [ha2, ha1, List.append_assoc]
  · intro a ha
    rcases List.mem_append.mp ha with h | h
    · exact hall2 a h
    · exact hall1 a h
  · rw [hf2, hf1, List.append_assoc]
  · intro g hg
    rcases List.mem_append.mp hg with h | h
    · exact hfall2 g h
    · exact hfall1 g h

theorem post_of_contPost_post (cfg : BtConfig) (iham0 k0 : Nat)
    {s1 s2 s3 : BtState} {r : Bool} (h1 : ContPost cfg k0 s1 s2)
    (h2 : Post cfg iham0 k0 s2 s3 r) : Post cfg iham0 k0 s1 s3 r := by
  obtain ⟨q1, m1, h1h, ⟨a1, ha1, hall1⟩, ⟨f1, hf1, hfall1⟩⟩ := h1
  obtain ⟨q2, m2, hh2, hh2f, ⟨a2, ha2, hall2⟩, ⟨f2, hf2, hfall2⟩⟩ := h2
  refine ⟨q2.trans q1, fun j hj => (m2 j hj).trans (m1 j hj),
    fun htr => ?_, fun hfa => (hh2f hfa).trans h1h,
    ⟨a2 ++ a1, ?_, ?_⟩, ⟨f2 ++ f1, ?_, ?_⟩⟩
  · obtain ⟨h, hh, hg⟩ := hh2 htr
    exact ⟨h, by rw [hh, h1h], hg⟩
  · rw [ha2, ha1, List.append_assoc]
  · intro a ha
    rcases List.mem_append.mp ha with h | h
    · exact hall2 a h
    · exact hall1 a h
  · rw [hf2, hf1, List.append_assoc]
  · intro g hg
    rcases List.mem_append.mp hg with h | h
    · exact hfall2 g h
    · exact hfall1 g h

theorem post_false_contPost (cfg : BtConfig) (iham0 k0 : Nat)
    {s1 s2 : BtState} (h : Post cfg iham0 k0 s1 s2 false) :
    ContPost cfg k0 s1 s2 :=
  ⟨h.1, h.2.1, h.2.2.2.1 rfl, h.2.2.2.2.1, h.2.2.2.2.2⟩

theorem post_of_post_contPost (cfg : BtConfig) (iham0 k0 : Nat)
    {s1 s2 s3 : BtState} {r : Bool} (h1 : Post cfg iham0 k0 s1 s2 r)
    (h2 : ContPost cfg k0 s2 s3) : Post cfg iham0 k0 s1 s3 r := by
  obtain ⟨q1, m1, hh1, hh1f, ⟨a1, ha1, hall1⟩, ⟨f1, hf1, hfall1⟩⟩ := h1
  obtain ⟨q2, m2, h2h, ⟨a2, ha2, hall2⟩, ⟨f2, hf2, hfall2⟩⟩ := h2
  refine ⟨q2.trans q1, fun j hj => (m2 j hj).trans (m1 j hj),
    fun htr => ?_, fun hfa => h2h.trans (hh1f hfa),
    ⟨a2 ++ a1, ?_, ?_⟩, ⟨f2 ++ f1, ?_, ?_⟩⟩
  · obtain ⟨h, hh, hg⟩ := hh1 htr
    exact ⟨h, by rw [h2h, hh], hg⟩
  · rw [ha2, ha1, List.append_assoc]
  · intro a ha
    rcases List.mem_append.mp ha with h | h
    · exact hall2 a h
    · exact hall1 a h
  · rw [hf2, hf1, List.append_assoc]
  · intro g hg
    rcases List.mem_append.mp hg with h | h
    · exact hfall2 g h
    · exact hfall1 g h

/-- Pre is stable under state changes that preserve the read and the
mismatch entries below the frame depth. -/
theorem pre_stable (cfg : BtConfig) (iham0 : Nat) (fr : Fr) {st st2 : BtState}
    (hpre : Pre cfg iham0 fr st) (hq : st2.qry = st.qry)
    (hm : ∀ j, j < fr.k → st2.mms j = st.mms j) :
    Pre cfg iham0 fr st2 := by
  obtain ⟨p1, p2, p3, p4, p5, p6, p7, p8, p9, p10⟩ := hpre
  have hps : pathSum cfg st2 fr.k = pathSum cfg st fr.k := by
    unfold pathSum
    rw [map_range_congr _ st.mms fr.k hm]
  have hpd : pathD cfg st2 fr.k = pathD cfg st fr.k := by
    unfold pathD
    exact map_range_congr _ _ fr.k (fun j hj => by rw [hm j hj])
  refine ⟨p1, p2, by rw [hps]; exact p3, p4, p5, p6, p7, ?_, ?_, ?_⟩
  · unfold QryApplied
    rw [hq]
    exact p8
  · intro j hj
    rw [hq]
    exact p9 j hj
  · unfold RegionPre
    rw [hpd]
    exact p10

theorem post_refl_false (cfg : BtConfig) (iham0 k0 : Nat) (st : BtState) :
    Post cfg iham0 k0 st st false :=
  ⟨rfl, fun _ _ => rfl, fun h => Bool.noConfusion h, fun _ => rfl,
    ⟨[], rfl, fun a ha => absurd ha (List.not_mem_nil a)⟩,
    ⟨[], rfl, fun a ha => absurd ha (List.not_mem_nil a)⟩⟩

theorem post_false_of_contPost (cfg : BtConfig) (iham0 k0 : Nat)
    {s1 s2 : BtState} (h : ContPost cfg k0 s1 s2) :
    Post cfg iham0 k0 s1 s2 false :=
  ⟨h.1, h.2.1, fun hc => Bool.noConfusion hc, fun _ => h.2.2.1,
    h.2.2.2.1, h.2.2.2.2⟩

theorem post_mono (cfg : BtConfig) (iham0 : Nat) {k0 k1 : Nat} (hk : k0 ≤ k1)
    {s1 s2 : BtState} {r : Bool} (h : Post cfg iham0 k1 s1 s2 r) :
    Post cfg iham0 k0 s1 s2 r :=
  ⟨h.1, fun j hj => h.2.1 j (lt_of_lt_of_le hj hk), h.2.2.1, h.2.2.2.1,
    h.2.2.2.2.1, h.2.2.2.2.2⟩

theorem contPost_of_helpers (cfg : BtConfig) (k0 pB eB : Nat)
    (hpB : pB = k0 * cfg.qlen * 8) (heB : eB = k0 * cfg.qlen)
    {s1 s2 : BtState} (hu : Untouched s1 s2) (ha : AccExt cfg k0 pB eB s1 s2) :
    ContPost cfg k0 s1 s2 := by
  subst hpB heB
  exact contPost_of_untouched cfg k0 hu ha

theorem pathFacts_of_regionPre (cfg : BtConfig)
    (k depth unrev oneRev twoRev : Nat) (st : BtState)
    (h : RegionPre cfg k depth unrev oneRev twoRev st) :
    PathFacts cfg st k := by
  obtain ⟨h1, h2, _, h4, _⟩ := h
  refine ⟨fun x hx => (h1 x hx).1, h2, fun hhalf => ?_⟩
  rcases h4 hhalf with ⟨_, hc⟩ | ⟨_, hc⟩ | hc
  · exact hc
  · omega
  · omega

theorem countIn_append (l : List Nat) (x a b : Nat) :
    countIn (l ++ [x]) a b
      = countIn l a b + (if a ≤ x ∧ x < b then 1 else 0) := by
  unfold countIn
  rw [List.filter_append, List.length_append]
  congr 1
  by_cases h : a ≤ x ∧ x < b
  · rw [if_pos h]
    simp [List.filter_cons, h.1, h.2]
  · rw [if_neg h]
    rcases not_and_or.mp h with h2 | h2 <;> simp [List.filter_cons, h2]

theorem pathD_succ (cfg : BtConfig) (st : BtState) (k : Nat) :
    pathD cfg st (k + 1) = pathD cfg st k ++ [cfg.qlen - 1 - st.mms k] := by
  unfold pathD
  rw [List.range_succ, List.map_append]
  rfl

theorem pathSum_succ (cfg : BtConfig) (st : BtState) (k : Nat) :
    pathSum cfg st (k + 1)
      = pathSum cfg st k + QUAL (cfg.qual.getD (st.mms k) 0) := by
  unfold pathSum qualSumL
  rw [List.range_succ, List.map_append, List.map_append, List.sum_append]
  rfl

/-- The region invariant survives a backtrack on an uneliminated target
at position i with the frame boundaries tightened as the code does. -/
theorem regionStep (cfg : BtConfig) (k depth unrev oneRev twoRev : Nat)
    (st st2 : BtState) (i : Nat)
    (hr1 : cfg.unrevOff ≤ cfg.oneRevOff) (hr2 : cfg.oneRevOff ≤ cfg.twoRevOff)
    (hreg : RegionPre cfg k depth unrev oneRev twoRev st)
    (hpd : pathD cfg st2 (k + 1) = pathD cfg st k ++ [i])
    (hui : unrev ≤ i) (hdep : depth ≤ i) (hiq : i < cfg.qlen) :
    RegionPre cfg (k + 1) (i + 1)
      (tighten cfg.halfAndHalf cfg.twoRevOff unrev oneRev twoRev i).1
      (tighten cfg.halfAndHalf cfg.twoRevOff unrev oneRev twoRev i).2.1
      (tighten cfg.halfAndHalf cfg.twoRevOff unrev oneRev twoRev i).2.2
      st2 := by
  obtain ⟨h1, h2, h3, h4, h5, h6, h7, h8, h9, h10⟩ := hreg
  have hcnt1 : countIn (pathD cfg st2 (k + 1)) cfg.unrevOff cfg.oneRevOff
      = countIn (pathD cfg st k) cfg.unrevOff cfg.oneRevOff
        + (if cfg.unrevOff ≤ i ∧ i < cfg.oneRevOff then 1 else 0) := by
    rw [hpd, countIn_append]
  have hcnt2 : countIn (pathD cfg st2 (k + 1)) cfg.oneRevOff cfg.twoRevOff
      = countIn (pathD cfg st k) cfg.oneRevOff cfg.twoRevOff
        + (if cfg.oneRevOff ≤ i ∧ i < cfg.twoRevOff then 1 else 0) := by
    rw [hpd, countIn_append]
  have hmem : ∀ x ∈ pathD cfg st2 (k + 1), cfg.unrevOff ≤ x ∧ x < i + 1 := by
    intro x hx
    rw [hpd] at hx
    rcases List.mem_append.mp hx with hx | hx
    · have := h1 x hx
      omega
    · rw [List.mem_singleton] at hx
      omega
  have hc1post : countIn (pathD cfg st2 (k + 1)) cfg.unrevOff cfg.oneRevOff ≤ 1 := by
    by_cases hir1 : i < cfg.oneRevOff
    · have hz : countIn (pathD cfg st k) cfg.unrevOff cfg.oneRevOff = 0 := by
        by_contra hnz
        have := h3 (by omega)
        omega
      rw [hcnt1, hz]
      split <;> omega
    · rw [hcnt1, if_neg (by omega)]
      omega
  unfold tighten
  by_cases hb1 : i < oneRev
  · rw [if_pos hb1]
    show RegionPre cfg (k + 1) (i + 1) oneRev cfg.twoRevOff twoRev st2
    refine ⟨hmem, hc1post, fun _ => h7, ?_, by omega, by omega, by omega,
      le_refl _, by omega, ?_⟩
    · intro hhf
      have htr : twoRev = cfg.twoRevOff := h10 hhf
      by_cases hir1 : i < cfg.oneRevOff
      · rw [hcnt2, if_neg (by omega)]
        rcases h4 hhf with ⟨ha, hc⟩ | ⟨ha, hc⟩ | hc
        · exact Or.inl ⟨by omega, by omega⟩
        · exact Or.inr (Or.inl ⟨rfl, by omega⟩)
        · exact Or.inr (Or.inl ⟨rfl, by omega⟩)
      · rw [hcnt2, if_pos (by omega)]
        rcases h4 hhf with ⟨ha, hc⟩ | ⟨ha, hc⟩ | hc
        · omega
        · exact Or.inl ⟨by omega, by omega⟩
        · exact Or.inr (Or.inl ⟨rfl, by omega⟩)
    · intro hhf
      exact h10 hhf
  · rw [if_neg hb1]
    by_cases hb2 : i < twoRev
    · rw [if_pos hb2]
      by_cases hhf : cfg.halfAndHalf = true
      · rw [if_pos hhf]
        show RegionPre cfg (k + 1) (i + 1) unrev oneRev oneRev st2
        refine ⟨hmem, hc1post, ?_, ?_, h5, h6, h7, h8, h7, ?_⟩
        · intro hcc
          rw [hcnt1, if_neg (by omega)] at hcc
          exact h3 hcc
        · intro hff
          rw [hff] at hhf
          exact Bool.noConfusion hhf
        · intro hff
          rw [hff] at hhf
          exact Bool.noConfusion hhf
      · rw [if_neg hhf]
        have hhf2 : cfg.halfAndHalf = false := by
          cases hcb : cfg.halfAndHalf
          · rfl
          · exact absurd hcb hhf
        have htr : twoRev = cfg.twoRevOff := h10 hhf2
        show RegionPre cfg (k + 1) (i + 1) unrev twoRev twoRev st2
        refine ⟨hmem, hc1post, ?_, ?_, h5, by omega, by omega, by omega,
          by omega, fun _ => htr⟩
        · intro hcc
          rw [hcnt1, if_neg (by omega)] at hcc
          exact h3 hcc
        · intro _
          rw [hcnt2, if_pos (by omega)]
          rcases h4 hhf2 with ⟨ha, hc⟩ | ⟨ha, hc⟩ | hc
          · omega
          · omega
          · exact Or.inr (Or.inl ⟨htr.symm ▸ rfl, by omega⟩)
    · rw [if_neg hb2]
      show RegionPre cfg (k + 1) (i + 1) unrev oneRev twoRev st2
      refine ⟨hmem, hc1post, ?_, ?_, h5, h6, h7, h8, h9, h10⟩
      · intro hcc
        rw [hcnt1, if_neg (by omega)] at hcc
        exact h3 hcc
      · intro hhf
        have htr : twoRev = cfg.twoRevOff := h10 hhf
        rw [hcnt2, if_neg (by omega)]
        rcases h4 hhf with ⟨ha, hc⟩ | ⟨ha, hc⟩ | hc
        · exact Or.inl ⟨ha, by omega⟩
        · exact Or.inr (Or.inl ⟨ha, by omega⟩)
        · exact Or.inr (Or.inr (by omega))

/-- Facts about the state the mismatch loop hands to the recursive
child: the read is unchanged, the mismatch array gained only the frame
entry, and the path bookkeeping extends by the target. -/
theorem loopChildFacts (cfg : BtConfig) (k : Nat) (t : Tgt) (st st2 : BtState)
    (hm : st2.mms = st.mms) (hq : st2.qry = st.qry) (hti : t.ti < cfg.qlen) :
    ContPost cfg k st2
        (setChars (setMms st2 k (cfg.qlen - t.ti - 1)) t.ti (acgtChar t.tj))
      ∧ (setChars (setMms st2 k (cfg.qlen - t.ti - 1)) t.ti
          (acgtChar t.tj)).qry = st.qry
      ∧ (∀ j, j < k →
          (setChars (setMms st2 k (cfg.qlen - t.ti - 1)) t.ti
            (acgtChar t.tj)).mms j = st.mms j)
      ∧ pathSum cfg
          (setChars (setMms st2 k (cfg.qlen - t.ti - 1)) t.ti (acgtChar t.tj))
          (k + 1)
        = pathSum cfg st k + QUAL (cfg.qual.getD (cfg.qlen - t.ti - 1) 0)
      ∧ pathD cfg
          (setChars (setMms st2 k (cfg.qlen - t.ti - 1)) t.ti (acgtChar t.tj))
          (k + 1)
        = pathD cfg st k ++ [t.ti] := by
  have hmm : ∀ j, j < k →
      (setChars (setMms st2 k (cfg.qlen - t.ti - 1)) t.ti
        (acgtChar t.tj)).mms j = st.mms j := by
    intro j hj
    show (if j = k then cfg.qlen - t.ti - 1 else st2.mms j) = st.mms j
    rw [if_neg (by omega), hm]
  have hmk : (setChars (setMms st2 k (cfg.qlen - t.ti - 1)) t.ti
      (acgtChar t.tj)).mms k = cfg.qlen - t.ti - 1 := by
    show (if k = k then cfg.qlen - t.ti - 1 else st2.mms k)
      = cfg.qlen - t.ti - 1
    rw [if_pos rfl]
  refine ⟨⟨rfl, fun j hj => by rw [hmm j hj, hm], rfl,
      ⟨[], rfl, fun a ha => absurd ha (List.not_mem_nil a)⟩,
      ⟨[], rfl, fun a ha => absurd ha (List.not_mem_nil a)⟩⟩,
    hq, hmm, ?_, ?_⟩
  · rw [pathSum_succ, hmk]
    congr 1
    unfold pathSum
    rw [map_range_congr _ st.mms k hmm]
  · rw [pathD_succ]
    have hx : cfg.qlen - 1 - (setChars (setMms st2 k (cfg.qlen - t.ti - 1))
        t.ti (acgtChar t.tj)).mms k = t.ti := by
      rw [hmk]
      omega
    rw [hx]
    congr 1
    unfold pathD
    exact map_range_congr _ _ k (fun j hj => by rw [hmm j hj])

theorem isAlternative_budget (u d h thr rq : Nat)
    (hh : isAlternative u d h thr rq = true) : h + QUAL rq ≤ thr := by
  unfold isAlternative at hh
  simp only [Bool.and_eq_true, decide_eq_true_eq] at hh
  exact hh.2

theorem accExt_rdPairsAt {cfg : BtConfig} {k pB eB : Nat} (st : BtState)
    (i off : Nat) (hoff : off < cfg.qlen * 8) (hi : i = pB + off) :
    AccExt cfg k pB eB st (rdPairs k st i).2 := by
  subst hi
  exact AccExt.rdPairs st off hoff

theorem contPost_setChars (cfg : BtConfig) (k0 : Nat) (st : BtState)
    (i v : Nat) : ContPost cfg k0 st (setChars st i v) :=
  ⟨rfl, fun _ _ => rfl, rfl,
    ⟨[], rfl, fun a ha => absurd ha (List.not_mem_nil a)⟩,
    ⟨[], rfl, fun a ha => absurd ha (List.not_mem_nil a)⟩⟩

theorem contPost_seedIte (cfg : BtConfig) (k0 : Nat) (bcond : Bool)
    (st : BtState) :
    ContPost cfg k0 st (if bcond = true then reportSeedlingM cfg k0 st else st) := by
  by_cases h : bcond = true
  · rw [if_pos h]
    exact ⟨rfl, fun _ _ => rfl, rfl,
      ⟨[], rfl, fun a ha => absurd ha (List.not_mem_nil a)⟩,
      ⟨[], rfl, fun a ha => absurd ha (List.not_mem_nil a)⟩⟩
  · rw [if_neg h]
    exact contPost_refl cfg k0 st

/-- What one walk iteration guarantees before the mismatch loop runs:
the read, mismatches, hits and frames are untouched, all scratch
accesses stay in the frame slice, and lowAltQual stays affordable. -/
theorem walkStep_spec (cfg : BtConfig) (fr : Fr) (d top bot alt en es lowq : Nat)
    (st : BtState) (hdlt : d < cfg.qlen)
    (hc4 : st.qry.getD (cfg.qlen - d - 1) 0 < 4)
    (hpB : fr.pB = fr.k * cfg.qlen * 8) (heB : fr.eB = fr.k * cfg.qlen) :
    ContPost cfg fr.k st (walkStep cfg fr d top bot alt en es lowq st).st5
      ∧ (LowInv cfg fr.ham lowq →
          LowInv cfg fr.ham
            (walkStep cfg fr d top bot alt en es lowq st).lowq2) := by
  unfold walkStep
  dsimp only
  have hqlen : 1 ≤ cfg.qlen := by omega
  have hoff1 : d * 8 + st.qry.getD (cfg.qlen - d - 1) 0 < cfg.qlen * 8 := by omega
  have hoff2 : d * 8 + st.qry.getD (cfg.qlen - d - 1) 0 + 4 < cfg.qlen * 8 := by
    omega
  by_cases hm0 : top = 0 ∧ bot = 0
  · rw [if_pos hm0]
    dsimp only
    by_cases hca : isAlternative fr.unrev d fr.ham cfg.qualThresh
        (cfg.qual.getD (cfg.qlen - d - 1) 0) = true
    · rw [if_pos hca]
      have hef := elimFold_spec cfg fr.k fr.pB fr.eB d
        (st.qry.getD (cfg.qlen - d - 1) 0)
        (QUAL (cfg.qual.getD (cfg.qlen - d - 1) 0))
        (isAlternative fr.unrev d fr.ham cfg.qualThresh
            (cfg.qual.getD (cfg.qlen - d - 1) 0)
          && decide (QUAL (cfg.qual.getD (cfg.qlen - d - 1) 0) ≤ lowq))
        hdlt fr.ham
        (fun he => isAlternative_budget _ _ _ _ _ (Bool.and_eq_true _ _ ▸ he).1)
        [0, 1, 2, 3] (by intro x hx; fin_cases hx <;> omega)
        alt en es lowq
        (isAlternative fr.unrev d fr.ham cfg.qualThresh
            (cfg.qual.getD (cfg.qlen - d - 1) 0)
          && decide (QUAL (cfg.qual.getD (cfg.qlen - d - 1) 0) < lowq))
        (wrElims fr.k
          (rdPairs fr.k
            (rdPairs fr.k (fchrInit cfg fr.k fr.pB st)
              (fr.pB + d * 8 + st.qry.getD (cfg.qlen - d - 1) 0)).2
            (fr.pB + d * 8 + st.qry.getD (cfg.qlen - d - 1) 0 + 4)).2
          (fr.eB + d) (1 <<< st.qry.getD (cfg.qlen - d - 1) 0))
      constructor
      · refine contPost_trans cfg fr.k
          (contPost_of_helpers cfg fr.k fr.pB fr.eB hpB heB ?_ ?_)
          (contPost_seedIte cfg fr.k _ _)
        · exact untouched_trans (fchrInit_spec cfg fr.k fr.pB fr.eB st hqlen).1
            (untouched_trans (untouched_rdPairs _ _ _)
              (untouched_trans (untouched_rdPairs _ _ _)
                (untouched_trans (untouched_wrElims _ _ _ _) hef.1)))
        · exact accExt_trans (fchrInit_spec cfg fr.k fr.pB fr.eB st hqlen).2
            (accExt_trans (accExt_rdPairsAt _ (fr.pB + d * 8 + st.qry.getD (cfg.qlen - d - 1) 0) (d * 8 + st.qry.getD (cfg.qlen - d - 1) 0) hoff1 (by omega))
              (accExt_trans (accExt_rdPairsAt _ (fr.pB + d * 8 + st.qry.getD (cfg.qlen - d - 1) 0 + 4) (d * 8 + st.qry.getD (cfg.qlen - d - 1) 0 + 4) hoff2 (by omega))
                (accExt_trans (AccExt.wrElims _ d (1 <<< st.qry.getD (cfg.qlen - d - 1) 0) hdlt) hef.2.1)))
      · exact hef.2.2
    · rw [if_neg hca]
      dsimp only
      constructor
      · refine contPost_trans cfg fr.k
          (contPost_of_helpers cfg fr.k fr.pB fr.eB hpB heB ?_ ?_)
          (contPost_seedIte cfg fr.k _ _)
        · exact untouched_trans (fchrInit_spec cfg fr.k fr.pB fr.eB st hqlen).1
            (untouched_trans (untouched_rdPairs _ _ _)
              (untouched_trans (untouched_rdPairs _ _ _)
                (untouched_wrElims _ _ _ _)))
        · exact accExt_trans (fchrInit_spec cfg fr.k fr.pB fr.eB st hqlen).2
            (accExt_trans (accExt_rdPairsAt _ (fr.pB + d * 8 + st.qry.getD (cfg.qlen - d - 1) 0) (d * 8 + st.qry.getD (cfg.qlen - d - 1) 0) hoff1 (by omega))
              (accExt_trans (accExt_rdPairsAt _ (fr.pB + d * 8 + st.qry.getD (cfg.qlen - d - 1) 0 + 4) (d * 8 + st.qry.getD (cfg.qlen - d - 1) 0 + 4) hoff2 (by omega))
                (AccExt.wrElims _ d (1 <<< st.qry.getD (cfg.qlen - d - 1) 0) hdlt)))
      · exact fun h => h
  · rw [if_neg hm0]
    by_cases hca : isAlternative fr.unrev d fr.ham cfg.qualThresh
        (cfg.qual.getD (cfg.qlen - d - 1) 0) = true
    · rw [if_pos hca, if_pos hca]
      dsimp only
      have hef := elimFold_spec cfg fr.k fr.pB fr.eB d
        (st.qry.getD (cfg.qlen - d - 1) 0)
        (QUAL (cfg.qual.getD (cfg.qlen - d - 1) 0))
        (isAlternative fr.unrev d fr.ham cfg.qualThresh
            (cfg.qual.getD (cfg.qlen - d - 1) 0)
          && decide (QUAL (cfg.qual.getD (cfg.qlen - d - 1) 0) ≤ lowq))
        hdlt fr.ham
        (fun he => isAlternative_budget _ _ _ _ _ (Bool.and_eq_true _ _ ▸ he).1)
        [0, 1, 2, 3] (by intro x hx; fin_cases hx <;> omega)
        alt en es lowq
        (isAlternative fr.unrev d fr.ham cfg.qualThresh
            (cfg.qual.getD (cfg.qlen - d - 1) 0)
          && decide (QUAL (cfg.qual.getD (cfg.qlen - d - 1) 0) < lowq))
        (wrElims fr.k
          (rdPairs fr.k
            (rdPairs fr.k (lfExWrite cfg fr.k fr.pB d top bot st)
              (fr.pB + d * 8 + st.qry.getD (cfg.qlen - d - 1) 0)).2
            (fr.pB + d * 8 + st.qry.getD (cfg.qlen - d - 1) 0 + 4)).2
          (fr.eB + d) (1 <<< st.qry.getD (cfg.qlen - d - 1) 0))
      constructor
      · refine contPost_trans cfg fr.k
          (contPost_of_helpers cfg fr.k fr.pB fr.eB hpB heB ?_ ?_)
          (contPost_seedIte cfg fr.k _ _)
        · exact untouched_trans
            (lfExWrite_spec cfg fr.k fr.pB fr.eB d top bot st hdlt).1
            (untouched_trans (untouched_rdPairs _ _ _)
              (untouched_trans (untouched_rdPairs _ _ _)
                (untouched_trans (untouched_wrElims _ _ _ _) hef.1)))
        · exact accExt_trans
            (lfExWrite_spec cfg fr.k fr.pB fr.eB d top bot st hdlt).2
            (accExt_trans (accExt_rdPairsAt _ (fr.pB + d * 8 + st.qry.getD (cfg.qlen - d - 1) 0) (d * 8 + st.qry.getD (cfg.qlen - d - 1) 0) hoff1 (by omega))
              (accExt_trans (accExt_rdPairsAt _ (fr.pB + d * 8 + st.qry.getD (cfg.qlen - d - 1) 0 + 4) (d * 8 + st.qry.getD (cfg.qlen - d - 1) 0 + 4) hoff2 (by omega))
                (accExt_trans (AccExt.wrElims _ d (1 <<< st.qry.getD (cfg.qlen - d - 1) 0) hdlt) hef.2.1)))
      · exact hef.2.2
    · rw [if_neg hca, if_neg hca]
      dsimp only
      constructor
      · refine contPost_trans cfg fr.k
          (contPost_of_helpers cfg fr.k fr.pB fr.eB hpB heB
            (untouched_wrElims _ _ _ _) (AccExt.wrElims _ d (1 <<< st.qry.getD (cfg.qlen - d - 1) 0) hdlt))
          (contPost_seedIte cfg fr.k _ _)
      · exact fun h => h

/-- The master invariant of the backtracker, by induction on fuel: a
returning frame restores the read, touches only its own mismatch and
scratch slices, logs only well-based frames within _maxStackDepth, and
appends exactly one hit - satisfying the amended budget and region
properties - iff it returns true. -/
theorem btMaster (fuel : Nat) :
    MasterRecP fuel ∧ MasterWalkP fuel ∧ MasterLoopP fuel := by
  induction fuel with
  | zero =>
    refine ⟨?_, ?_, ?_⟩
    · intro cfg iham0 fr top bot st r st2 _ _ _ h
      exact Option.noConfusion h
    · intro cfg iham0 fr d top bot alt en es lowq st r st2 _ _ _ _ _ h
      exact Option.noConfusion h
    · intro cfg iham0 fr d top bot alt en es lowq kg st out _ _ _ _ _ _ h
      exact Option.noConfusion h
  | succ fuel ih =>
    obtain ⟨ihr, ihw, ihl⟩ := ih
    refine ⟨?_, ?_, ?_⟩
    · -- the recursive backtrack: push the ghost frame, check the
      -- half-and-half gate, run the walk
      intro cfg iham0 fr top bot st r st2 hr1 hr2 hpre hrun
      have hkb : fr.k ≤ maxStackDepth cfg := by
        obtain ⟨_, _, _, hDep, hK, _⟩ := hpre
        unfold maxStackDepth
        rcases hK with h | h <;> omega
      have hfr : FrOk cfg ⟨fr.k, fr.pB, fr.eB⟩ :=
        ⟨hpre.2.2.2.2.2.1, hpre.2.2.2.2.2.2.1, hkb⟩
      have hcp1 : ContPost cfg fr.k st
          { st with frames := ⟨fr.k, fr.pB, fr.eB⟩ :: st.frames } :=
        ⟨rfl, fun _ _ => rfl, rfl,
          ⟨[], rfl, fun a ha => absurd ha (List.not_mem_nil a)⟩,
          ⟨[⟨fr.k, fr.pB, fr.eB⟩], rfl, fun g hg => by
            rw [List.mem_singleton] at hg
            rw [hg]
            exact hfr⟩⟩
      rw [btrec] at hrun
      by_cases hg : halfGate cfg fr.k fr.depth = true
      · rw [if_pos hg] at hrun
        have hps : Pre cfg iham0 fr
            { st with frames := ⟨fr.k, fr.pB, fr.eB⟩ :: st.frames } :=
          pre_stable cfg iham0 fr hpre rfl (fun _ _ => rfl)
        have hw := ihw cfg iham0 fr fr.depth top bot 0 0 0 255 _ r st2 hr1 hr2
          hps (le_refl _) (Or.inl rfl) hrun
        exact post_of_contPost_post cfg iham0 fr.k hcp1 hw
      · rw [if_neg hg] at hrun
        injection hrun with hpair
        have hb : false = r := congrArg Prod.fst hpair
        have hs : { st with frames := ⟨fr.k, fr.pB, fr.eB⟩ :: st.frames } = st2 :=
          congrArg Prod.snd hpair
        subst hb
        subst hs
        exact post_false_of_contPost cfg iham0 fr.k hcp1
    · -- the walk: one walkStep, the mismatch loop, then either return,
      -- fail, or advance to the next depth; at the end of the read,
      -- report
      intro cfg iham0 fr d top bot alt en es lowq st r st2 hr1 hr2 hpre hdep
        hlow hrun
      have hpre' := hpre
      obtain ⟨hIh, hHam, hSum, hDep, hK, hpB, heB, hQA, hQ4, hReg⟩ := hpre
      rw [btwalk] at hrun
      by_cases hdlt : d < cfg.qlen
      · rw [if_pos hdlt] at hrun
        dsimp only at hrun
        obtain ⟨hcp5, hlw5⟩ := walkStep_spec cfg fr d top bot alt en es lowq st
          hdlt (hQ4 (cfg.qlen - d - 1) (by omega)) hpB heB
        have hpre5 : Pre cfg iham0 fr
            ((walkStep cfg fr d top bot alt en es lowq st).st5) :=
          pre_stable cfg iham0 fr hpre' hcp5.1 hcp5.2.1
        split at hrun
        · exact Option.noConfusion hrun
        · rename_i rb st6 heq
          have hL := ihl cfg iham0 fr d _ _ _ _ _ _ _ _ _ hr1 hr2 hpre5 hdep
            hdlt (hlw5 hlow) heq
          have hp := hL.1 rb st6 rfl
          injection hrun with hpair
          have hb : rb = r := congrArg Prod.fst hpair
          have hs : st6 = st2 := congrArg Prod.snd hpair
          subst hb
          subst hs
          exact post_of_contPost_post cfg iham0 fr.k hcp5 hp
        · rename_i alt3 en3 es3 lowq3 st6 heq
          have hL := ihl cfg iham0 fr d _ _ _ _ _ _ _ _ _ hr1 hr2 hpre5 hdep
            hdlt (hlw5 hlow) heq
          obtain ⟨hc6, hl3⟩ := hL.2 alt3 en3 es3 lowq3 st6 rfl
          by_cases hend : (walkStep cfg fr d top bot alt en es lowq st).top2
              = (walkStep cfg fr d top bot alt en es lowq st).bot2 ∧ alt3 = 0
          · rw [if_pos hend] at hrun
            injection hrun with hpair
            have hb : false = r := congrArg Prod.fst hpair
            have hs : st6 = st2 := congrArg Prod.snd hpair
            subst hb
            subst hs
            exact post_false_of_contPost cfg iham0 fr.k
              (contPost_trans cfg fr.k hcp5 hc6)
          · rw [if_neg hend] at hrun
            have hcAll : ContPost cfg fr.k st
                (setChars st6 d (st6.qry.getD (cfg.qlen - d - 1) 0)) :=
              contPost_trans cfg fr.k (contPost_trans cfg fr.k hcp5 hc6)
                (contPost_setChars cfg fr.k st6 d _)
            have hcall := ihw cfg iham0 fr (d + 1) _ _ alt3 en3 es3 lowq3 _ r
              st2 hr1 hr2 (pre_stable cfg iham0 fr hpre' hcAll.1 hcAll.2.1)
              (by omega) hl3 hrun
            exact post_of_contPost_post cfg iham0 fr.k hcAll hcall
      · rw [if_neg hdlt] at hrun
        by_cases hsk : cfg.reportSeedlings ≤ fr.k
        · rw [if_pos hsk] at hrun
          obtain ⟨g1, g2, g3, g4, g5, g6⟩ := reportM_spec cfg iham0 fr.k top bot
            st r st2 hQA (by omega)
            (pathFacts_of_regionPre cfg fr.k fr.depth fr.unrev fr.oneRev
              fr.twoRev st hReg) hrun
          exact ⟨g1, g2, g5, g6,
            ⟨[], g3.trans (List.nil_append _).symm,
              fun a ha => absurd ha (List.not_mem_nil a)⟩,
            ⟨[], g4.trans (List.nil_append _).symm,
              fun a ha => absurd ha (List.not_mem_nil a)⟩⟩
        · rw [if_neg hsk] at hrun
          injection hrun with hpair
          have hb : false = r := congrArg Prod.fst hpair
          have hs : st = st2 := congrArg Prod.snd hpair
          subst hb
          subst hs
          exact post_refl_false cfg iham0 fr.k st
    · -- the mismatch loop: pick a random eligible target, recurse (or
      -- report at the last position), and on failure eliminate it and
      -- retry, possibly rescanning the eligibility bookkeeping
      intro cfg iham0 fr d top bot alt en es lowq kg st out hr1 hr2 hpre hdep
        hdlt hlow hrun
      have hpre' := hpre
      obtain ⟨hIh, hHam, hSum, hDep, hK, hpB, heB, hQA, hQ4, hReg⟩ := hpre
      have hu0u : cfg.unrevOff ≤ fr.unrev := hReg.2.2.2.2.1
      rw [btloop] at hrun
      by_cases hwc : (top = bot ∧ 0 < alt) ∨ kg = true
      · rw [if_pos hwc] at hrun
        by_cases hes : es = 0
        · rw [if_pos hes] at hrun
          exact Option.noConfusion hrun
        · rw [if_neg hes] at hrun
          dsimp only [nextU32] at hrun
          split at hrun
          · exact Option.noConfusion hrun
          · rename_i t stc heq
            have hct := chooseTargetGo_spec cfg fr.k fr.pB fr.eB fr.unrev lowq
              (cfg.rand st.randCnt % es) (d + 1 - fr.depth) fr.depth 0
              { st with randCnt := st.randCnt + 1 } (by omega)
            rw [heq] at hct
            obtain ⟨hu2, hax2, htg⟩ := hct
            obtain ⟨g1, g2, g3, g4, g5⟩ := htg t rfl
            have hti : t.ti < cfg.qlen := by omega
            have hcp2 : ContPost cfg fr.k st stc :=
              contPost_of_helpers cfg fr.k fr.pB fr.eB hpB heB
                (untouched_trans ⟨rfl, rfl, rfl, rfl⟩ hu2)
                (accExt_trans
                  ⟨[], rfl, fun a ha => absurd ha (List.not_mem_nil a)⟩ hax2)
            obtain ⟨hcc, hqc, hmc, hpsc, hpdc⟩ :=
              loopChildFacts cfg fr.k t st stc hu2.2.1 hu2.1 hti
            set stch := setChars (setMms stc fr.k (cfg.qlen - t.ti - 1)) t.ti
              (acgtChar t.tj) with hch
            have hq222 : t.qi ≤ 222 := by
              rw [g5]
              exact QUAL_le_222 _
            have hbt : fr.ham + t.qi ≤ cfg.qualThresh := by
              rcases hlow with h255 | hle <;> omega
            have hsum4 : iham0 + pathSum cfg stch (fr.k + 1) = fr.ham + t.qi := by
              rw [hpsc, g5]
              omega
            have hhamc : iham0 + pathSum cfg stch (fr.k + 1) ≤ cfg.qualThresh := by
              omega
            have hregc := regionStep cfg fr.k fr.depth fr.unrev fr.oneRev
              fr.twoRev st stch t.ti hr1 hr2 hReg hpdc g1 g2 hti
            have hpfc : PathFacts cfg stch (fr.k + 1) :=
              pathFacts_of_regionPre cfg (fr.k + 1) (t.ti + 1) _ _ _ stch hregc
            have hQAc : QryApplied cfg stch := by
              unfold QryApplied
              rw [hqc]
              exact hQA
            have hQ4c : ∀ j, j < cfg.qlen → stch.qry.getD j 0 < 4 :=
              fun j hj => by
                rw [hqc]
                exact hQ4 j hj
            have hres : ∀ b st5,
                (if t.ti + 1 = cfg.qlen then
                  reportM cfg (fr.k + 1) t.btop t.bbot stch
                else btrec fuel cfg
                  ⟨fr.k + 1, t.ti + 1,
                    (tighten cfg.halfAndHalf cfg.twoRevOff fr.unrev fr.oneRev
                      fr.twoRev t.ti).1,
                    (tighten cfg.halfAndHalf cfg.twoRevOff fr.unrev fr.oneRev
                      fr.twoRev t.ti).2.1,
                    (tighten cfg.halfAndHalf cfg.twoRevOff fr.unrev fr.oneRev
                      fr.twoRev t.ti).2.2,
                    fr.ham + t.qi, fr.iham, fr.pB + cfg.qlen * 8,
                    fr.eB + cfg.qlen⟩
                  t.btop t.bbot stch) = some (b, st5) →
                Post cfg iham0 (fr.k + 1) stch st5 b := by
              intro b st5 hcase
              by_cases hlast : t.ti + 1 = cfg.qlen
              · rw [if_pos hlast] at hcase
                obtain ⟨j1, j2, j3, j4, j5, j6⟩ := reportM_spec cfg iham0
                  (fr.k + 1) t.btop t.bbot stch b st5 hQAc hhamc hpfc hcase
                exact ⟨j1, j2, j5, j6,
                  ⟨[], j3.trans (List.nil_append _).symm,
                    fun a ha => absurd ha (List.not_mem_nil a)⟩,
                  ⟨[], j4.trans (List.nil_append _).symm,
                    fun a ha => absurd ha (List.not_mem_nil a)⟩⟩
              · rw [if_neg hlast] at hcase
                exact ihr cfg iham0
                  ⟨fr.k + 1, t.ti + 1,
                    (tighten cfg.halfAndHalf cfg.twoRevOff fr.unrev fr.oneRev
                      fr.twoRev t.ti).1,
                    (tighten cfg.halfAndHalf cfg.twoRevOff fr.unrev fr.oneRev
                      fr.twoRev t.ti).2.1,
                    (tighten cfg.halfAndHalf cfg.twoRevOff fr.unrev fr.oneRev
                      fr.twoRev t.ti).2.2,
                    fr.ham + t.qi, fr.iham, fr.pB + cfg.qlen * 8,
                    fr.eB + cfg.qlen⟩
                  t.btop t.bbot stch b st5 hr1 hr2
                  ⟨hIh, hbt, by dsimp only; omega, by dsimp only; omega,
                    Or.inr (by dsimp only; rcases hK with h | h <;> omega),
                    by dsimp only; rw [hpB]; ring,
                    by dsimp only; rw [heB]; ring, hQAc, hQ4c, hregc⟩
                  hcase
            split at hrun
            · exact Option.noConfusion hrun
            · rename_i st5 heqres
              injection hrun with hout
              subst hout
              refine ⟨fun b st2' hco => ?_,
                fun a2 e2 s2 lq2 st2' hco => LoopRes.noConfusion hco⟩
              injection hco with hb hs
              subst hb
              subst hs
              exact post_of_contPost_post cfg iham0 fr.k
                (contPost_trans cfg fr.k hcp2 hcc)
                (post_mono cfg iham0 (Nat.le_succ _) (hres true st5 heqres))
            · rename_i st5 heqres
              have hc67 : ContPost cfg fr.k st5
                  (wrElims fr.k
                    (rdElims fr.k
                      (setChars st5 t.ti (st5.qry.getD (cfg.qlen - t.ti - 1) 0))
                      (fr.eB + t.ti)).2
                    (fr.eB + t.ti)
                    ((rdElims fr.k
                      (setChars st5 t.ti (st5.qry.getD (cfg.qlen - t.ti - 1) 0))
                      (fr.eB + t.ti)).1 ||| (1 <<< t.tj))) :=
                contPost_trans cfg fr.k
                  (contPost_setChars cfg fr.k st5 t.ti _)
                  (contPost_of_helpers cfg fr.k fr.pB fr.eB hpB heB
                    (untouched_trans (untouched_rdElims _ _ _)
                      (untouched_wrElims _ _ _ _))
                    (accExt_trans (AccExt.rdElims _ t.ti hti)
                      (AccExt.wrElims _ t.ti _ hti)))
              set st7v := wrElims fr.k
                (rdElims fr.k
                  (setChars st5 t.ti (st5.qry.getD (cfg.qlen - t.ti - 1) 0))
                  (fr.eB + t.ti)).2
                (fr.eB + t.ti)
                ((rdElims fr.k
                  (setChars st5 t.ti (st5.qry.getD (cfg.qlen - t.ti - 1) 0))
                  (fr.eB + t.ti)).1 ||| (1 <<< t.tj)) with h7v
              have hcAll : ContPost cfg fr.k st st7v :=
                contPost_trans cfg fr.k
                  (contPost_trans cfg fr.k
                    (contPost_trans cfg fr.k hcp2 hcc)
                    (post_false_contPost cfg iham0 fr.k
                      (post_mono cfg iham0 (Nat.le_succ _)
                        (hres false st5 heqres))))
                  hc67
              by_cases halt2 : alt - 1 = 0
              · rw [if_pos halt2] at hrun
                injection hrun with hout
                subst hout
                refine ⟨fun b st2' hco => ?_,
                  fun a2 e2 s2 lq2 st2' hco => LoopRes.noConfusion hco⟩
                injection hco with hb hs
                subst hb
                subst hs
                exact post_false_of_contPost cfg iham0 fr.k hcAll
              · rw [if_neg halt2] at hrun
                by_cases hen2 : en - 1 = 0
                · rw [if_pos hen2] at hrun
                  obtain ⟨hrsu, hrsa, hrsl⟩ := rescanGo_spec cfg fr.k fr.pB
                    fr.eB fr.unrev fr.ham
                    (List.range' fr.depth (d + 1 - fr.depth))
                    (by
                      intro x hx
                      rw [List.mem_range'_1] at hx
                      omega)
                    255 (en - 1) (es - (t.bbot - t.btop)) st7v
                  have hcrs := contPost_of_helpers cfg fr.k fr.pB fr.eB hpB heB
                    hrsu hrsa
                  have hlrs := hrsl (Or.inl rfl)
                  have hcA2 := contPost_trans cfg fr.k hcAll hcrs
                  obtain ⟨hLr, hLc⟩ := ihl cfg iham0 fr d top bot (alt - 1) _ _
                    _ false _ out hr1 hr2
                    (pre_stable cfg iham0 fr hpre' hcA2.1 hcA2.2.1) hdep hdlt
                    hlrs hrun
                  refine ⟨fun b st2' hco =>
                      post_of_contPost_post cfg iham0 fr.k hcA2
                        (hLr b st2' hco),
                    fun a2 e2 s2 lq2 st2' hco => ?_⟩
                  obtain ⟨hcx, hlx⟩ := hLc a2 e2 s2 lq2 st2' hco
                  exact ⟨contPost_trans cfg fr.k hcA2 hcx, hlx⟩
                · rw [if_neg hen2] at hrun
                  obtain ⟨hLr, hLc⟩ := ihl cfg iham0 fr d top bot (alt - 1)
                    (en - 1) (es - (t.bbot - t.btop)) lowq false st7v out hr1
                    hr2 (pre_stable cfg iham0 fr hpre' hcAll.1 hcAll.2.1) hdep
                    hdlt hlow hrun
                  refine ⟨fun b st2' hco =>
                      post_of_contPost_post cfg iham0 fr.k hcAll
                        (hLr b st2' hco),
                    fun a2 e2 s2 lq2 st2' hco => ?_⟩
                  obtain ⟨hcx, hlx⟩ := hLc a2 e2 s2 lq2 st2' hco
                  exact ⟨contPost_trans cfg fr.k hcAll hcx, hlx⟩
      · rw [if_neg hwc] at hrun
        injection hrun with hout
        subst hout
        refine ⟨fun b st2' hco => LoopRes.noConfusion hco,
          fun a2 e2 s2 lq2 st2' hco => ?_⟩
        injection hco with h1 h2 h3 h4 h5
        subst h1
        subst h2
        subst h3
        subst h4
        subst h5
        exact ⟨contPost_refl cfg fr.k st, hlow⟩

theorem applyMutations_getElem?_outside (muts : List QueryMutation)
    (q : List Nat) (p : Nat) (h : ∀ m ∈ muts, m.pos ≠ p) :
    (applyMutations muts q)[p]? = q[p]? := by
  induction muts generalizing q with
  | nil => rfl
  | cons m ms ih =>
    rw [applyMutations, List.foldl_cons]
    rw [show List.foldl (fun qq mm => qq.set mm.pos mm.newBase)
      (q.set m.pos m.newBase) ms
      = applyMutations ms (q.set m.pos m.newBase) from rfl]
    rw [ih _ (fun mm hm => h mm (List.mem_cons_of_mem _ hm))]
    exact List.getElem?_set_ne (h m (List.mem_cons_self _ _))

/-- Applying the mutation set is idempotent, so the state right after
construction has the mutation set applied. -/
theorem applyMutations_idem (muts : List QueryMutation) (q : List Nat) :
    applyMutations muts (applyMutations muts q) = applyMutations muts q := by
  apply applyMutations_congr
  · rw [applyMutations_length]
  · intro p hp
    exact applyMutations_getElem?_outside muts q p hp

/-- The master invariant lifted to one full backtrack call on a fresh
BacktrackManager, through the ftab dispatch of the top-level entry. -/
theorem runBacktrack_post (cfg : BtConfig) (fuel iham0 : Nat) (r : Bool)
    (st2 : BtState)
    (hr1 : cfg.unrevOff ≤ cfg.oneRevOff) (hr2 : cfg.oneRevOff ≤ cfg.twoRevOff)
    (hq0 : 0 < cfg.qlen) (hiham : iham0 ≤ cfg.qualThresh)
    (hchars : ∀ j, j < cfg.qlen →
      (applyMutations cfg.muts cfg.qry0).getD j 0 < 4)
    (hrun : runBacktrack cfg fuel iham0 = some (r, st2)) :
    Post cfg iham0 0 (initSt cfg) st2 r := by
  have hQA : QryApplied cfg (initSt cfg) := applyMutations_idem cfg.muts cfg.qry0
  have hps0 : pathSum cfg (initSt cfg) 0 = 0 := rfl
  have hcnt0 : ∀ a b, countIn (pathD cfg (initSt cfg) 0) a b = 0 :=
    fun a b => rfl
  have hpre0 : ∀ dep, dep < cfg.qlen →
      Pre cfg iham0
        ⟨0, dep, cfg.unrevOff, cfg.oneRevOff, cfg.twoRevOff, iham0, iham0, 0, 0⟩
        (initSt cfg) := by
    intro dep hdep
    refine ⟨rfl, hiham, by dsimp only; rw [hps0]; omega, hdep, Or.inl rfl,
      by dsimp only; ring, by dsimp only; ring, hQA, hchars, ?_⟩
    show RegionPre cfg 0 dep cfg.unrevOff cfg.oneRevOff cfg.twoRevOff
      (initSt cfg)
    refine ⟨fun x hx => absurd hx (List.not_mem_nil x),
      by rw [hcnt0]; omega, ?_, fun _ => Or.inr (Or.inr (hcnt0 _ _)),
      le_refl _, hr1, le_refl _, hr2, hr2, fun _ => rfl⟩
    intro hcc
    rw [hcnt0] at hcc
    omega
  unfold runBacktrack backtrackEntry at hrun
  by_cases hft : cfg.ftabChars ≤ min cfg.unrevOff cfg.qlen
  · rw [if_pos hft] at hrun
    dsimp only at hrun
    by_cases hqf : cfg.qlen = cfg.ftabChars
        ∧ cfg.ftabHi (ftabOffOf cfg (initSt cfg).qry)
          < cfg.ftabLo (ftabOffOf cfg (initSt cfg).qry + 1)
    · rw [if_pos hqf] at hrun
      by_cases hsd : 0 < cfg.reportSeedlings
      · rw [if_pos hsd] at hrun
        unfold backtrackFrom at hrun
        exact (btMaster fuel).1 cfg iham0 _ 0 0 (initSt cfg) r st2 hr1 hr2
          (hpre0 0 hq0) hrun
      · rw [if_neg hsd] at hrun
        have hpf0 : PathFacts cfg (initSt cfg) 0 :=
          ⟨fun x hx => absurd hx (List.not_mem_nil x), by rw [hcnt0]; omega,
            fun _ => by rw [hcnt0]; omega⟩
        obtain ⟨g1, g2, g3, g4, g5, g6⟩ := reportM_spec cfg iham0 0 _ _
          (initSt cfg) r st2 hQA (by rw [hps0]; omega) hpf0 hrun
        exact ⟨g1, g2, g5, g6,
          ⟨[], g3.trans (List.nil_append _).symm,
            fun a ha => absurd ha (List.not_mem_nil a)⟩,
          ⟨[], g4.trans (List.nil_append _).symm,
            fun a ha => absurd ha (List.not_mem_nil a)⟩⟩
    · rw [if_neg hqf] at hrun
      by_cases htb : cfg.ftabHi (ftabOffOf cfg (initSt cfg).qry)
          < cfg.ftabLo (ftabOffOf cfg (initSt cfg).qry + 1)
      · rw [if_pos htb] at hrun
        unfold backtrackFrom at hrun
        have hlt : cfg.ftabChars < cfg.qlen := by
          have hne : cfg.qlen ≠ cfg.ftabChars := fun he => hqf ⟨he, htb⟩
          omega
        exact (btMaster fuel).1 cfg iham0 _ _ _ (initSt cfg) r st2 hr1 hr2
          (hpre0 cfg.ftabChars hlt) hrun
      · rw [if_neg htb] at hrun
        injection hrun with hpair
        have hb : false = r := congrArg Prod.fst hpair
        have hs : initSt cfg = st2 := congrArg Prod.snd hpair
        subst hb
        subst hs
        exact post_refl_false cfg iham0 0 (initSt cfg)
  · rw [if_neg hft] at hrun
    unfold backtrackFrom at hrun
    exact (btMaster fuel).1 cfg iham0 _ 0 0 (initSt cfg) r st2 hr1 hr2
      (hpre0 0 hq0) hrun

/-- C5: after a backtrack call returns, the borrowed read buffer is
byte-for-byte what it was immediately before the call (the mutated
read): mutations undone for reporting are reapplied before returning. -/
theorem c5_mutation_balance (cfg : BtConfig) (fuel iham0 : Nat) (r : Bool)
    (st2 : BtState)
    (hr1 : cfg.unrevOff ≤ cfg.oneRevOff) (hr2 : cfg.oneRevOff ≤ cfg.twoRevOff)
    (hq0 : 0 < cfg.qlen) (hiham : iham0 ≤ cfg.qualThresh)
    (hchars : ∀ j, j < cfg.qlen →
      (applyMutations cfg.muts cfg.qry0).getD j 0 < 4)
    (hrun : runBacktrack cfg fuel iham0 = some (r, st2)) :
    st2.qry = applyMutations cfg.muts cfg.qry0 :=
  (runBacktrack_post cfg fuel iham0 r st2 hr1 hr2 hq0 hiham hchars hrun).1

theorem c5_mutation_balance_witness :
    ∃ r st2, runBacktrack cfgA 20 0 = some (r, st2)
      ∧ st2.qry = applyMutations cfgA.muts cfgA.qry0 := by
  have hsome : (runBacktrack cfgA 20 0).isSome = true := by decide
  rcases heq : runBacktrack cfgA 20 0 with _ | ⟨r, st2⟩
  · rw [heq] at hsome
    exact Bool.noConfusion hsome
  · exact ⟨r, st2, rfl,
      c5_mutation_balance cfgA 20 0 r st2 (by decide) (by decide) (by decide)
        (by decide) (by decide) heq⟩

/-- C6: within one backtrack invocation the sink receives at most one
hit: exactly one when the call returns true, none when it fails. -/
theorem c6_one_hit (cfg : BtConfig) (fuel iham0 : Nat) (r : Bool)
    (st2 : BtState)
    (hr1 : cfg.unrevOff ≤ cfg.oneRevOff) (hr2 : cfg.oneRevOff ≤ cfg.twoRevOff)
    (hq0 : 0 < cfg.qlen) (hiham : iham0 ≤ cfg.qualThresh)
    (hchars : ∀ j, j < cfg.qlen →
      (applyMutations cfg.muts cfg.qry0).getD j 0 < 4)
    (hrun : runBacktrack cfg fuel iham0 = some (r, st2)) :
    st2.hits.length ≤ 1 ∧ (r = true → st2.hits.length = 1)
      ∧ (r = false → st2.hits = []) := by
  have hp := runBacktrack_post cfg fuel iham0 r st2 hr1 hr2 hq0 hiham hchars
    hrun
  cases r with
  | false =>
    have hf : st2.hits = (initSt cfg).hits := hp.2.2.2.1 rfl
    exact ⟨by rw [hf]; exact Nat.zero_le _, fun hc => Bool.noConfusion hc,
      fun _ => hf⟩
  | true =>
    obtain ⟨h, hh, _⟩ := hp.2.2.1 rfl
    refine ⟨by rw [hh]; exact le_refl _, fun _ => by rw [hh]; rfl,
      fun hc => Bool.noConfusion hc⟩

theorem c6_one_hit_witness :
    ∃ r st2, runBacktrack cfgA 20 0 = some (r, st2)
      ∧ st2.hits.length ≤ 1 := by
  have hsome : (runBacktrack cfgA 20 0).isSome = true := by decide
  rcases heq : runBacktrack cfgA 20 0 with _ | ⟨r, st2⟩
  · rw [heq] at hsome
    exact Bool.noConfusion hsome
  · exact ⟨r, st2, rfl,
      (c6_one_hit cfgA 20 0 r st2 (by decide) (by decide) (by decide)
        (by decide) (by decide) heq).1⟩

/-- C7: every ghost-logged scratch access of a frame at stack depth k
lies in the slices pairs[k*qlen*8, (k+1)*qlen*8) and
elims[k*qlen, (k+1)*qlen), and every entered frame has the matching
arena bases with stack depth at most _maxStackDepth. -/
theorem c7_scratch_isolation (cfg : BtConfig) (fuel iham0 : Nat) (r : Bool)
    (st2 : BtState)
    (hr1 : cfg.unrevOff ≤ cfg.oneRevOff) (hr2 : cfg.oneRevOff ≤ cfg.twoRevOff)
    (hq0 : 0 < cfg.qlen) (hiham : iham0 ≤ cfg.qualThresh)
    (hchars : ∀ j, j < cfg.qlen →
      (applyMutations cfg.muts cfg.qry0).getD j 0 < 4)
    (hrun : runBacktrack cfg fuel iham0 = some (r, st2)) :
    (∀ a ∈ st2.acc, AccSlice cfg a) ∧ ∀ g ∈ st2.frames, FrOk cfg g := by
  have hp := runBacktrack_post cfg fuel iham0 r st2 hr1 hr2 hq0 hiham hchars
    hrun
  obtain ⟨pre, hpr, hall⟩ := hp.2.2.2.2.1
  obtain ⟨pref, hprf, hallf⟩ := hp.2.2.2.2.2
  constructor
  · intro a ha
    rw [hpr] at ha
    rcases List.mem_append.mp ha with h | h
    · exact hall a h
    · exact absurd h (List.not_mem_nil a)
  · intro g hg
    rw [hprf] at hg
    rcases List.mem_append.mp hg with h | h
    · exact hallf g h
    · exact absurd h (List.not_mem_nil g)

theorem c7_scratch_isolation_witness :
    ∃ r st2, runBacktrack cfgB 30 0 = some (r, st2)
      ∧ (∀ a ∈ st2.acc, AccSlice cfgB a) ∧ ∀ g ∈ st2.frames, FrOk cfgB g := by
  have hsome : (runBacktrack cfgB 30 0).isSome = true := by decide
  rcases heq : runBacktrack cfgB 30 0 with _ | ⟨r, st2⟩
  · rw [heq] at hsome
    exact Bool.noConfusion hsome
  · exact ⟨r, st2, rfl,
      c7_scratch_isolation cfgB 30 0 r st2 (by decide) (by decide) (by decide)
        (by decide) (by decide) heq⟩

/-- C1 (amended): every reported hit charges the quality budget only
over its backtrack-chosen mismatches: the mutation set is a suffix of
the reported list and the initial weighted hamming distance plus the
quality sum over the non-spliced prefix is within qualThresh; the
spliced mutation positions are never charged. -/
theorem c1_budget_amended (cfg : BtConfig) (fuel iham0 : Nat) (r : Bool)
    (st2 : BtState)
    (hr1 : cfg.unrevOff ≤ cfg.oneRevOff) (hr2 : cfg.oneRevOff ≤ cfg.twoRevOff)
    (hq0 : 0 < cfg.qlen) (hiham : iham0 ≤ cfg.qualThresh)
    (hchars : ∀ j, j < cfg.qlen →
      (applyMutations cfg.muts cfg.qry0).getD j 0 < 4)
    (hrun : runBacktrack cfg fuel iham0 = some (r, st2)) :
    ∀ h ∈ st2.hits, cfg.muts.length ≤ h.k
      ∧ iham0 + qualSumL cfg (h.mms.take (h.k - cfg.muts.length))
        ≤ cfg.qualThresh := by
  intro h hh
  have hp := runBacktrack_post cfg fuel iham0 r st2 hr1 hr2 hq0 hiham hchars
    hrun
  cases r with
  | false =>
    rw [hp.2.2.2.1 rfl] at hh
    exact absurd hh (List.not_mem_nil h)
  | true =>
    obtain ⟨h2, hh2, hg⟩ := hp.2.2.1 rfl
    rw [hh2] at hh
    rcases List.mem_cons.mp hh with he | he
    · subst he
      exact ⟨hg.1, hg.2.1⟩
    · exact absurd he (List.not_mem_nil h)

theorem c1_budget_amended_witness :
    ∃ r st2, runBacktrack cfgA 20 0 = some (r, st2)
      ∧ ∀ h ∈ st2.hits, cfgA.muts.length ≤ h.k
        ∧ 0 + qualSumL cfgA (h.mms.take (h.k - cfgA.muts.length))
          ≤ cfgA.qualThresh := by
  have hsome : (runBacktrack cfgA 20 0).isSome = true := by decide
  rcases heq : runBacktrack cfgA 20 0 with _ | ⟨r, st2⟩
  · rw [heq] at hsome
    exact Bool.noConfusion hsome
  · exact ⟨r, st2, rfl,
      c1_budget_amended cfgA 20 0 r st2 (by decide) (by decide) (by decide)
        (by decide) (by decide) heq⟩

/-- C2 (amended): the mismatch depths of every reported hit that were
chosen by backtracking all lie at or beyond unrevOff, at most one lies
in the 1-revisitable region, and - outside half-and-half mode - at most
two lie in the 2-revisitable region; the half-and-half entry
requirements are not hit invariants. -/
theorem c2_region_amended (cfg : BtConfig) (fuel iham0 : Nat) (r : Bool)
    (st2 : BtState)
    (hr1 : cfg.unrevOff ≤ cfg.oneRevOff) (hr2 : cfg.oneRevOff ≤ cfg.twoRevOff)
    (hq0 : 0 < cfg.qlen) (hiham : iham0 ≤ cfg.qualThresh)
    (hchars : ∀ j, j < cfg.qlen →
      (applyMutations cfg.muts cfg.qry0).getD j 0 < 4)
    (hrun : runBacktrack cfg fuel iham0 = some (r, st2)) :
    ∀ h ∈ st2.hits,
      (∀ x ∈ pathDepthsOf cfg h, cfg.unrevOff ≤ x)
        ∧ countIn (pathDepthsOf cfg h) cfg.unrevOff cfg.oneRevOff ≤ 1
        ∧ (cfg.halfAndHalf = false →
            countIn (pathDepthsOf cfg h) cfg.oneRevOff cfg.twoRevOff ≤ 2) := by
  intro h hh
  have hp := runBacktrack_post cfg fuel iham0 r st2 hr1 hr2 hq0 hiham hchars
    hrun
  cases r with
  | false =>
    rw [hp.2.2.2.1 rfl] at hh
    exact absurd hh (List.not_mem_nil h)
  | true =>
    obtain ⟨h2, hh2, hg⟩ := hp.2.2.1 rfl
    rw [hh2] at hh
    rcases List.mem_cons.mp hh with he | he
    · subst he
      exact ⟨hg.2.2.1, hg.2.2.2.1, hg.2.2.2.2⟩
    · exact absurd he (List.not_mem_nil h)

theorem c2_region_amended_witness :
    ∃ r st2, runBacktrack cfgB 30 0 = some (r, st2)
      ∧ ∀ h ∈ st2.hits,
          (∀ x ∈ pathDepthsOf cfgB h, cfgB.unrevOff ≤ x)
            ∧ countIn (pathDepthsOf cfgB h) cfgB.unrevOff cfgB.oneRevOff ≤ 1 := by
  have hsome : (runBacktrack cfgB 30 0).isSome = true := by decide
  rcases heq : runBacktrack cfgB 30 0 with _ | ⟨r, st2⟩
  · rw [heq] at hsome
    exact Bool.noConfusion hsome
  · refine ⟨r, st2, rfl, fun h hh => ?_⟩
    have hg := c2_region_amended cfgB 30 0 r st2 (by decide) (by decide)
      (by decide) (by decide) (by decide) heq h hh
    exact ⟨hg.1, hg.2.1⟩

end Bowtie
